import Mathlib

/-!
# Verification of the ckst-translation document-translation core

This file gives a shallow embedding, in Lean 4, of the core logic of the
`ckst-translation` repository (src/text_utils.py, src/openai_translate.py,
src/xlsm_translate.py, src/pdf_translate.py, src/pptx_translate.py) and
proves / refutes the frozen claims C1-C10 about it.

Modelling conventions:
* Python strings are modelled as `List Char` (`PyStr`).  Python `dict`s are
  modelled as association lists in insertion order (Python dicts preserve
  insertion order, and the code iterates over `.items()` in that order).
* Python `re` usage is modelled by a small executable regular-expression
  engine (`RE` / `runRE`) with Python's leftmost, greedy, backtracking match
  semantics for exactly the constructs the source patterns use.  Character
  classes `\w`, `\s`, `\d` are the ASCII classes, with every non-ASCII
  codepoint treated as a word character (an explicit approximation of
  Python's Unicode classes; all concrete inputs in this file are unaffected).
* External collaborators (the OpenAI backend, PyMuPDF rendering and
  serialization, python-pptx / openpyxl byte-level (de)serialization,
  LibreOffice) are modelled as explicit function parameters ("oracles"):
  the theorems quantify over them, so they hold for every possible
  behaviour of the external system.
-/

/-- Python strings, as lists of characters. -/
abbrev PyStr := List Char

/-- The characters Python's `str.strip()` removes (ASCII whitespace plus
NBSP; `\s` of `re` is modelled with the same set). -/
def isPySpace (c : Char) : Bool :=
  c = ' ' || c = '\t' || c = '\n' || c = '\r' || c.val = 11 || c.val = 12 || c.val = 0xa0

/-- `str.lstrip()`. -/
def pyStripL (s : PyStr) : PyStr := s.dropWhile isPySpace

/-- `str.rstrip()`. -/
def pyStripR (s : PyStr) : PyStr := (s.reverse.dropWhile isPySpace).reverse

/-- `str.strip()`. -/
def pyStrip (s : PyStr) : PyStr := pyStripR (pyStripL s)

/-- `str.splitlines()` (restricted to the `\n`, `\r`, `\r\n` line breaks). -/
def pySplitlines : PyStr → List PyStr
  | [] => []
  | c :: rest =>
    if c = '\n' then [] :: pySplitlines rest
    else if c = '\r' then
      match rest with
      | '\n' :: rest2 => [] :: pySplitlines rest2
      | [] => [[]]
      | c2 :: rest2 => [] :: pySplitlines (c2 :: rest2)
    else
      match pySplitlines rest with
      | [] => [[c]]
      | l :: ls => (c :: l) :: ls

/-- `text[a:b]` for `0 ≤ a ≤ b`. -/
def pySlice (s : PyStr) (a b : Nat) : PyStr := (s.take b).drop a

/-- The scan of Python `str.replace(p, v)`, with explicit fuel so that the
recursion is structural (the fuel is always at least the string length, so
the fuel-exhausted case is unreachable). -/
def replaceStrGo (p v : PyStr) : Nat → PyStr → PyStr
  | 0, s => s
  | _ + 1, [] => []
  | fuel + 1, c :: rest =>
    if p ≠ [] ∧ p.isPrefixOf (c :: rest) then
      v ++ replaceStrGo p v fuel ((c :: rest).drop p.length)
    else
      c :: replaceStrGo p v fuel rest

/-- Python `str.replace(p, v)`: replace all occurrences, scanning left to
right, non-overlapping. -/
def replaceStr (p v s : PyStr) : PyStr := replaceStrGo p v s.length s

/-- `sep in s` for a single-character separator. -/
def pyContains (s : PyStr) (c : Char) : Bool := s.any (fun d => d = c)

/-- Python `s.split(sep, 1)` for a one-character separator that does occur:
returns the part before the first occurrence and the part after it. -/
def splitOnceChar (ch : Char) : PyStr → PyStr × PyStr
  | [] => ([], [])
  | c :: rest =>
    if c = ch then ([], rest)
    else
      let p := splitOnceChar ch rest
      (c :: p.1, p.2)

/-- Python dict assignment `d[k] = v`: overwrite in place if the key exists
(keeping its position), else append. -/
def dictInsert (g : List (PyStr × PyStr)) (k v : PyStr) : List (PyStr × PyStr) :=
  if g.any (fun p => p.1 == k) then
    g.map (fun p => if p.1 == k then (k, v) else p)
  else g ++ [(k, v)]

/-- Python `d.get(k)` / `d[k]`. -/
def dictGet (g : List (PyStr × PyStr)) (k : PyStr) : Option PyStr :=
  (g.find? (fun p => p.1 == k)).map (·.2)

/-! ## Batching engine: `chunk_items` (src/openai_translate.py) -/

/-- `TranslationItem` (src/openai_translate.py): an id naming the item's
location and the raw source text. -/
structure TranslationItem where
  id : PyStr
  text : PyStr
deriving DecidableEq, Repr

/-- Cumulative character count of a batch. -/
def batchChars (b : List TranslationItem) : Nat := (b.map (fun it => it.text.length)).sum

/-- The loop of `chunk_items`, with its state (`cur`, `cur_chars`) made
explicit; on exhaustion the trailing nonempty batch is flushed. -/
def chunkGo (max_chars max_items : Nat) :
    List TranslationItem → List TranslationItem → Nat → List (List TranslationItem)
  | [], cur, _ => if cur = [] then [] else [cur]
  | it :: rest, cur, cur_chars =>
    let tlen := it.text.length
    if cur ≠ [] ∧ (max_items ≤ cur.length ∨ max_chars < cur_chars + tlen) then
      cur :: chunkGo max_chars max_items rest [it] tlen
    else
      chunkGo max_chars max_items rest (cur ++ [it]) (cur_chars + tlen)

/-- `chunk_items` (src/openai_translate.py lines 17-34): greedy batching
under an item-count bound and a cumulative-character bound. -/
def chunk_items (items : List TranslationItem) (max_chars : Nat := 18000)
    (max_items : Nat := 60) : List (List TranslationItem) :=
  chunkGo max_chars max_items items [] 0

lemma batchChars_nil : batchChars [] = 0 := rfl

lemma batchChars_append_one (b : List TranslationItem) (it : TranslationItem) :
    batchChars (b ++ [it]) = batchChars b + it.text.length := by
  simp [batchChars]

/-- The loop invariant of `chunk_items`: any batch it ever emits satisfies
the count bound, and the character bound unless it is a single oversized
item. -/
lemma chunkGo_sound (max_chars max_items : Nat) (hmi : 1 ≤ max_items) :
    ∀ (items cur : List TranslationItem) (cc : Nat),
      cc = batchChars cur →
      cur.length ≤ max_items →
      (batchChars cur ≤ max_chars ∨ ∃ it, cur = [it] ∧ max_chars < it.text.length) →
      ∀ b ∈ chunkGo max_chars max_items items cur cc,
        b.length ≤ max_items ∧
          (batchChars b ≤ max_chars ∨ ∃ it, b = [it] ∧ max_chars < it.text.length)
  | [], cur, cc, hcc, hlen, hok, b, hb => by
    by_cases hcur : cur = []
    · simp [chunkGo, hcur] at hb
    · simp [chunkGo, hcur] at hb
      subst hb
      exact ⟨hlen, hok⟩
  | it :: rest, cur, cc, hcc, hlen, hok, b, hb => by
    simp only [chunkGo] at hb
    by_cases hcond : cur ≠ [] ∧ (max_items ≤ cur.length ∨ max_chars < cc + it.text.length)
    · rw [if_pos hcond] at hb
      rcases List.mem_cons.mp hb with hb | hb
      · subst hb
        exact ⟨hlen, hok⟩
      · refine chunkGo_sound max_chars max_items hmi rest [it] it.text.length ?_ ?_ ?_ b hb
        · simp [batchChars]
        · simpa using hmi
        · by_cases hit : batchChars [it] ≤ max_chars
          · exact Or.inl hit
          · refine Or.inr ⟨it, rfl, ?_⟩
            simp [batchChars] at hit
            omega
    · rw [if_neg hcond] at hb
      push_neg at hcond
      by_cases hcur : cur = []
      · subst hcur
        have hcc0 : cc = 0 := by simpa [batchChars] using hcc
        subst hcc0
        simp only [List.nil_append] at hb
        refine chunkGo_sound max_chars max_items hmi rest [it] (0 + it.text.length) ?_ ?_ ?_ b hb
        · simp [batchChars]
        · simpa using hmi
        · by_cases hit : batchChars [it] ≤ max_chars
          · exact Or.inl hit
          · refine Or.inr ⟨it, rfl, ?_⟩
            simp [batchChars] at hit
            omega
      · obtain ⟨hlt, hle⟩ := hcond hcur
        refine chunkGo_sound max_chars max_items hmi rest (cur ++ [it]) (cc + it.text.length) ?_ ?_ ?_ b hb
        · rw [batchChars_append_one, hcc]
        · simp only [List.length_append, List.length_cons, List.length_nil]
          omega
        · left
          rw [batchChars_append_one, ← hcc]
          omega

/-- C2: for every item sequence and every `max_items ≥ 1`, every batch that
`chunk_items` produces has at most `max_items` items and cumulative text
length at most `max_chars`, except that a batch whose single item is itself
longer than `max_chars` consists of exactly that one oversized item. -/
theorem chunk_items_bounds (items : List TranslationItem) (max_chars max_items : Nat)
    (hmi : 1 ≤ max_items) (b : List TranslationItem)
    (hb : b ∈ chunk_items items max_chars max_items) :
    b.length ≤ max_items ∧
      (batchChars b ≤ max_chars ∨ ∃ it, b = [it] ∧ max_chars < it.text.length) :=
  chunkGo_sound max_chars max_items hmi items [] 0 rfl (by simp) (Or.inl (by simp [batchChars])) b hb

/-- Witness for C2 at a concrete input: two items, `max_chars = 3`,
`max_items = 1`; the second item is oversized and sits alone. -/
theorem chunk_items_bounds_witness :
    (1 ≤ 1 ∧
      [TranslationItem.mk ['b'] ['x', 'y', 'z', 'w']] ∈
        chunk_items [⟨['a'], ['x']⟩, ⟨['b'], ['x', 'y', 'z', 'w']⟩] 3 1) ∧
      ([TranslationItem.mk ['b'] ['x', 'y', 'z', 'w']].length ≤ 1 ∧
        (batchChars [TranslationItem.mk ['b'] ['x', 'y', 'z', 'w']] ≤ 3 ∨
          ∃ it, [TranslationItem.mk ['b'] ['x', 'y', 'z', 'w']] = [it] ∧ 3 < it.text.length)) :=
  ⟨⟨by decide, by decide⟩,
    chunk_items_bounds [⟨['a'], ['x']⟩, ⟨['b'], ['x', 'y', 'z', 'w']⟩] 3 1 (by decide) _ (by decide)⟩

/-! ## Glossary parsing: `parse_glossary_lines` (src/text_utils.py lines 105-125) -/

/-- `parse_glossary_lines`: per line, strip; skip blank lines and lines
starting with `#`; skip lines with no `=`; split on the first `=`; keep the
entry when both trimmed sides are nonempty. -/
def parse_glossary_lines (raw : PyStr) : List (PyStr × PyStr) :=
  if raw = [] then []
  else
    (pySplitlines raw).foldl
      (fun g line0 =>
        let line := pyStrip line0
        if line = [] then g
        else if line.head? = some '#' then g
        else if ¬ pyContains line '=' then g
        else
          let kv := splitOnceChar '=' line
          let k := pyStrip kv.1
          let v := pyStrip kv.2
          if k ≠ [] ∧ v ≠ [] then dictInsert g k v else g)
      []

/-! ### Elementary facts about `pyStrip` -/

lemma mem_pyStripL {c : Char} {l : PyStr} (h : c ∈ pyStripL l) : c ∈ l :=
  (List.dropWhile_sublist isPySpace).mem h

lemma mem_pyStripR {c : Char} {l : PyStr} (h : c ∈ pyStripR l) : c ∈ l := by
  have : c ∈ l.reverse.dropWhile isPySpace := by
    simpa [pyStripR] using h
  simpa using (List.dropWhile_sublist isPySpace).mem this

lemma mem_pyStrip {c : Char} {l : PyStr} (h : c ∈ pyStrip l) : c ∈ l :=
  mem_pyStripL (mem_pyStripR h)

lemma pyStripL_eq_nil_iff {l : PyStr} : pyStripL l = [] ↔ ∀ c ∈ l, isPySpace c := by
  simp [pyStripL, List.dropWhile_eq_nil_iff]

lemma pyStripR_eq_nil_iff {l : PyStr} : pyStripR l = [] ↔ ∀ c ∈ l, isPySpace c := by
  simp [pyStripR, List.dropWhile_eq_nil_iff]

lemma pyStripL_ne_nil_of_pyStrip {l : PyStr} (h : pyStrip l ≠ []) : pyStripL l ≠ [] := by
  intro hnil
  exact h (by simp [pyStrip, hnil, pyStripR])

lemma pyStripR_ne_nil_of_pyStrip {l : PyStr} (h : pyStrip l ≠ []) : pyStripR l ≠ [] := by
  intro hnil
  have hall : ∀ c ∈ l, isPySpace c := pyStripR_eq_nil_iff.mp hnil
  have : pyStripL l = [] := pyStripL_eq_nil_iff.mpr hall
  exact h (by simp [pyStrip, this, pyStripR])

lemma pyStripL_append_of_ne {a b : PyStr} (h : pyStripL a ≠ []) :
    pyStripL (a ++ b) = pyStripL a ++ b := by
  simp only [pyStripL] at *
  rw [List.dropWhile_append, if_neg (by simpa [List.isEmpty_iff] using h)]

lemma pyStripR_append_of_ne {a b : PyStr} (h : pyStripR b ≠ []) :
    pyStripR (a ++ b) = a ++ pyStripR b := by
  have hb : b.reverse.dropWhile isPySpace ≠ [] := by
    intro hnil
    exact h (by simp [pyStripR, hnil])
  simp only [pyStripR, List.reverse_append]
  rw [List.dropWhile_append, if_neg (by simpa [List.isEmpty_iff] using hb)]
  simp

lemma pyStripL_idem (l : PyStr) : pyStripL (pyStripL l) = pyStripL l := by
  simp only [pyStripL]
  cases h : l.dropWhile isPySpace with
  | nil => rfl
  | cons c rest =>
    have hc : isPySpace c = false := by
      have := List.head?_dropWhile_not isPySpace l
      rw [h] at this
      simpa using this
    simp [List.dropWhile_cons, hc]

lemma pyStripR_idem (l : PyStr) : pyStripR (pyStripR l) = pyStripR l := by
  simp only [pyStripR, List.reverse_reverse]
  cases h : l.reverse.dropWhile isPySpace with
  | nil => rfl
  | cons c rest =>
    have hc : isPySpace c = false := by
      have := List.head?_dropWhile_not isPySpace l.reverse
      rw [h] at this
      simpa using this
    simp [List.dropWhile_cons, hc]

lemma pyStrip_pyStripL (l : PyStr) : pyStrip (pyStripL l) = pyStrip l := by
  simp [pyStrip, pyStripL_idem]

lemma pyStripR_isPrefix (X : PyStr) : pyStripR X <+: X := by
  have hsuf : X.reverse.dropWhile isPySpace <:+ X.reverse := List.dropWhile_suffix isPySpace
  have h2 : (pyStripR X).reverse <:+ X.reverse := by
    simpa [pyStripR] using hsuf
  exact List.reverse_suffix.mp h2

lemma pyStrip_pyStripR (l : PyStr) : pyStrip (pyStripR l) = pyStrip l := by
  by_cases hv : pyStripL l = []
  · have hall : ∀ c ∈ l, isPySpace c := pyStripL_eq_nil_iff.mp hv
    have hr : pyStripR l = [] := pyStripR_eq_nil_iff.mpr hall
    rw [hr]
    show pyStripR (pyStripL []) = pyStripR (pyStripL l)
    rw [hv]
    rfl
  · -- split l into its all-space prefix and the rest (which starts with a
    -- non-space character c)
    obtain ⟨c, u', hcu⟩ : ∃ c u', pyStripL l = c :: u' := by
      cases hh : pyStripL l with
      | nil => exact absurd hh hv
      | cons c u' => exact ⟨c, u', rfl⟩
    have hchead : isPySpace c = false := by
      have h0 := List.head?_dropWhile_not isPySpace l
      rw [show l.dropWhile isPySpace = c :: u' from hcu] at h0
      simpa using h0
    have hsp : ∀ d ∈ l.takeWhile isPySpace, isPySpace d := fun d hd => List.mem_takeWhile_imp hd
    have hRu : pyStripR (pyStripL l) ≠ [] := by
      intro hnil
      have := pyStripR_eq_nil_iff.mp hnil c (by simp [hcu])
      simp [hchead] at this
    have h1 : pyStripR l = l.takeWhile isPySpace ++ pyStripR (pyStripL l) := by
      conv_lhs => rw [← List.takeWhile_append_dropWhile (p := isPySpace) (l := l)]
      exact pyStripR_append_of_ne hRu
    have h2 : pyStripL (pyStripR l) = pyStripL (pyStripR (pyStripL l)) := by
      rw [h1]
      simp only [pyStripL]
      exact List.dropWhile_append_of_pos hsp
    -- pyStripR (pyStripL l) is a nonempty prefix of pyStripL l, so it starts
    -- with c, which is not a space
    have h3 : pyStripL (pyStripR (pyStripL l)) = pyStripR (pyStripL l) := by
      obtain ⟨t, ht⟩ := pyStripR_isPrefix (pyStripL l)
      cases hq : pyStripR (pyStripL l) with
      | nil => rfl
      | cons d q =>
        rw [hq, hcu] at ht
        simp only [List.cons_append] at ht
        injection ht with hd htl
        rw [hd]
        show (c :: q).dropWhile isPySpace = c :: q
        exact List.dropWhile_cons_of_neg (by simp [hchead])
    calc pyStrip (pyStripR l) = pyStripR (pyStripL (pyStripR l)) := rfl
      _ = pyStripR (pyStripL (pyStripR (pyStripL l))) := by rw [h2]
      _ = pyStripR (pyStripR (pyStripL l)) := by rw [h3]
      _ = pyStripR (pyStripL l) := pyStripR_idem (pyStripL l)
      _ = pyStrip l := rfl

lemma pyStrip_head?_eq {l : PyStr} (h : pyStrip l ≠ []) :
    (pyStrip l).head? = (pyStripL l).head? := by
  obtain ⟨t, ht⟩ := pyStripR_isPrefix (pyStripL l)
  have ht2 : pyStrip l ++ t = pyStripL l := ht
  rw [← ht2, List.head?_append]
  cases hq : (pyStrip l).head? with
  | none => exact absurd (List.head?_eq_none_iff.mp hq) h
  | some d => simp

lemma pySplitlines_single : ∀ l : PyStr, (∀ c ∈ l, c ≠ '\n' ∧ c ≠ '\r') → l ≠ [] →
    pySplitlines l = [l]
  | [], _, hne => absurd rfl hne
  | c :: rest, h, _ => by
    have hc := h c (List.mem_cons_self c rest)
    by_cases hr : rest = []
    · subst hr
      simp [pySplitlines, hc.1, hc.2]
    · have ih := pySplitlines_single rest (fun d hd => h d (List.mem_cons_of_mem c hd)) hr
      rw [pySplitlines.eq_def]
      simp [hc.1, hc.2, ih]

lemma splitOnceChar_append {A B : PyStr} {ch : Char} (h : ∀ c ∈ A, c ≠ ch) :
    splitOnceChar ch (A ++ ch :: B) = (A, B) := by
  induction A with
  | nil => simp [splitOnceChar]
  | cons a A ih =>
    have ha := h a (List.mem_cons_self a A)
    have ihh := ih (fun c hc => h c (List.mem_cons_of_mem a hc))
    simp [splitOnceChar, if_neg ha, ihh]

/-- C8 counterexample: the code only recognizes `=` as a separator.  A line
using `->` produces no entry at all, and a line using `=>` maps the key to
`"> b"` (the `>` is kept as part of the target), contradicting the claim
that `=>` and `->` are accepted separators mapping to the trimmed target. -/
theorem parse_glossary_lines_counterexample :
    parse_glossary_lines ("a -> b").data = [] ∧
      parse_glossary_lines ("a => b").data = [(['a'], ['>', ' ', 'b'])] ∧
      (['>', ' ', 'b'] : PyStr) ≠ ['b'] := by
  refine ⟨by decide, by decide, by decide⟩

/-- C8 (amended): `parse_glossary_lines` accepts only `=` as separator.  A
newline-free line `k=v` whose key part contains no `=`, with nonempty
trimmed key and value and a key not starting with `#`, yields exactly the
entry (trimmed key ↦ trimmed value); any line with no `=` at all (in
particular a `->` line, or a blank line) produces no entry; and a line
whose stripped form starts with `#` produces no entry. -/
theorem parse_glossary_lines_amended :
    (∀ k v : PyStr, (∀ c ∈ k, c ≠ '\n' ∧ c ≠ '\r') → (∀ c ∈ v, c ≠ '\n' ∧ c ≠ '\r') →
        (∀ c ∈ k, c ≠ '=') → pyStrip k ≠ [] → pyStrip v ≠ [] →
        (pyStrip k).head? ≠ some '#' →
        parse_glossary_lines (k ++ '=' :: v) = [(pyStrip k, pyStrip v)]) ∧
      (∀ line : PyStr, (∀ c ∈ line, c ≠ '\n' ∧ c ≠ '\r') → (∀ c ∈ line, c ≠ '=') →
        parse_glossary_lines line = []) ∧
      (∀ line : PyStr, (∀ c ∈ line, c ≠ '\n' ∧ c ≠ '\r') → (pyStrip line).head? = some '#' →
        parse_glossary_lines line = []) := by
  refine ⟨?_, ?_, ?_⟩
  · intro k v hkNL hvNL hkEq hk hv hkHash
    have hne : k ++ '=' :: v ≠ [] := by simp
    have hNL : ∀ c ∈ k ++ '=' :: v, c ≠ '\n' ∧ c ≠ '\r' := by
      intro c hc
      rcases List.mem_append.mp hc with h | h
      · exact hkNL c h
      · rcases List.mem_cons.mp h with h | h
        · subst h
          exact ⟨by decide, by decide⟩
        · exact hvNL c h
    have hkL : pyStripL k ≠ [] := pyStripL_ne_nil_of_pyStrip hk
    have hvR : pyStripR v ≠ [] := pyStripR_ne_nil_of_pyStrip hv
    have hstr : pyStrip (k ++ '=' :: v) = pyStripL k ++ '=' :: pyStripR v := by
      calc pyStrip (k ++ '=' :: v) = pyStripR (pyStripL (k ++ '=' :: v)) := rfl
        _ = pyStripR (pyStripL k ++ '=' :: v) := by rw [pyStripL_append_of_ne hkL]
        _ = pyStripR ((pyStripL k ++ ['=']) ++ v) := by rw [← List.append_cons]
        _ = (pyStripL k ++ ['=']) ++ pyStripR v := pyStripR_append_of_ne hvR
        _ = pyStripL k ++ '=' :: pyStripR v := by rw [← List.append_cons]
    have hLne : pyStripL k ++ '=' :: pyStripR v ≠ [] := by simp
    have hLhash : (pyStripL k ++ '=' :: pyStripR v).head? ≠ some '#' := by
      rw [List.head?_append_of_ne_nil _ hkL]
      rw [← pyStrip_head?_eq hk]
      exact hkHash
    have hLcont : pyContains (pyStripL k ++ '=' :: pyStripR v) '=' = true := by
      simp only [pyContains, List.any_eq_true]
      exact ⟨'=', by simp, by simp⟩
    have hLsplit : splitOnceChar '=' (pyStripL k ++ '=' :: pyStripR v) = (pyStripL k, pyStripR v) :=
      splitOnceChar_append (fun c hc => hkEq c (mem_pyStripL hc))
    unfold parse_glossary_lines
    rw [if_neg hne, pySplitlines_single _ hNL hne]
    simp only [List.foldl_cons, List.foldl_nil, hstr, hLsplit, pyStrip_pyStripL, pyStrip_pyStripR]
    rw [if_neg hLne, if_neg hLhash, if_neg (by simp [hLcont]), if_pos ⟨hk, hv⟩]
    simp [dictInsert]
  · intro line hNL hEq
    by_cases hl : line = []
    · subst hl
      rfl
    · have hnc : pyContains (pyStrip line) '=' = false := by
        simp only [pyContains, List.any_eq_true, not_exists]
        simp only [List.any_eq_false]
        intro c hc
        simp [hEq c (mem_pyStrip hc)]
      unfold parse_glossary_lines
      rw [if_neg hl, pySplitlines_single _ hNL hl]
      simp only [List.foldl_cons, List.foldl_nil]
      by_cases h1 : pyStrip line = []
      · simp [h1]
      · by_cases h2 : (pyStrip line).head? = some '#'
        · simp [h1, h2]
        · simp [h1, h2, hnc]
  · intro line hNL hHash
    by_cases hl : line = []
    · subst hl
      rfl
    · have h1 : pyStrip line ≠ [] := by
        intro hnil
        rw [hnil] at hHash
        simp at hHash
      unfold parse_glossary_lines
      rw [if_neg hl, pySplitlines_single _ hNL hl]
      simp only [List.foldl_cons, List.foldl_nil]
      simp [h1, hHash]

/-- Witness for the amended C8 at concrete inputs: the line `couro=leather`
parses to the single entry (couro ↦ leather), and the separator-free line
`couro leather` parses to nothing. -/
theorem parse_glossary_lines_amended_witness :
    ((∀ c ∈ ("couro").data, c ≠ '\n' ∧ c ≠ '\r') ∧
        (∀ c ∈ ("leather").data, c ≠ '\n' ∧ c ≠ '\r') ∧
        (∀ c ∈ ("couro").data, c ≠ '=') ∧
        pyStrip ("couro").data ≠ [] ∧ pyStrip ("leather").data ≠ [] ∧
        (pyStrip ("couro").data).head? ≠ some '#') ∧
      parse_glossary_lines (("couro").data ++ '=' :: ("leather").data) =
        [(pyStrip ("couro").data, pyStrip ("leather").data)] ∧
      parse_glossary_lines ("couro leather").data = [] :=
  ⟨⟨by decide, by decide, by decide, by decide, by decide, by decide⟩,
    parse_glossary_lines_amended.1 ("couro").data ("leather").data (by decide) (by decide)
      (by decide) (by decide) (by decide) (by decide),
    parse_glossary_lines_amended.2.1 ("couro leather").data (by decide) (by decide)⟩

/-! ## A small regular-expression engine

`protect_text` and `apply_glossary_hard` use Python `re`.  The following
engine implements, executably, exactly the constructs the source patterns
need: character classes, concatenation, alternation (left-preferring),
greedy counted repetition, and the word-boundary assertion, with Python's
leftmost / greedy / backtracking match semantics.  `runRE` returns the list
of possible match lengths in backtracking-priority order, so its head is
the length Python's `re.match` would produce. -/

/-- The `\w` class: ASCII alphanumerics and underscore; non-ASCII
codepoints are treated as word characters (approximating Python's Unicode
word class). -/
def isWordChar (c : Char) : Bool := c.isAlphanum || c = '_' || 128 ≤ c.val

inductive RE where
  | cls (p : Char → Bool)
  | eps
  | wb
  | seq (a b : RE)
  | alt (a b : RE)
  | rep (r : RE) (lo : Nat) (hi : Option Nat)

/-- The character just before position `n` of `s`, given the character
`prev` just before `s` itself (for `\b` tests). -/
def charBefore (prev : Option Char) (s : PyStr) (n : Nat) : Option Char :=
  if n = 0 then prev else s[n - 1]?

def isWordOpt : Option Char → Bool
  | some c => isWordChar c
  | none => false

/-- `\b` holds where exactly one neighbour is a word character. -/
def atBoundary (prev : Option Char) (s : PyStr) : Bool :=
  isWordOpt prev != isWordOpt s.head?

/-- All possible numbers of characters a match of `r` can consume from the
front of `s`, in backtracking-priority order (greedy first, left
alternative first).  `prev` is the character before `s`; `fuel` bounds the
recursion depth (chosen large enough by `matchFuel`). -/
def runRE : Nat → RE → Option Char → PyStr → List Nat
  | 0, _, _, _ => []
  | fuel + 1, r, prev, s =>
    match r with
    | .cls p =>
      match s with
      | c :: _ => if p c then [1] else []
      | [] => []
    | .eps => [0]
    | .wb => if atBoundary prev s then [0] else []
    | .seq a b =>
      (runRE fuel a prev s).flatMap (fun n =>
        (runRE fuel b (charBefore prev s n) (s.drop n)).map (fun m => n + m))
    | .alt a b => runRE fuel a prev s ++ runRE fuel b prev s
    | .rep r1 lo hi =>
      match hi with
      | some 0 => [0]
      | _ =>
        let more :=
          (runRE fuel r1 prev s).flatMap (fun n =>
            if n = 0 then []
            else
              (runRE fuel (.rep r1 (lo - 1) (hi.map (fun h => h - 1))) (charBefore prev s n)
                  (s.drop n)).map (fun m => n + m))
        if lo = 0 then more ++ [0] else more

/-- A match never consumes more characters than the string has. -/
lemma runRE_le : ∀ (fuel : Nat) (r : RE) (prev : Option Char) (s : PyStr),
    ∀ n ∈ runRE fuel r prev s, n ≤ s.length := by
  intro fuel
  induction fuel with
  | zero =>
    intro r prev s n hn
    simp [runRE] at hn
  | succ fuel ih =>
    intro r prev s n hn
    cases r with
    | cls p =>
      cases s with
      | nil => simp [runRE] at hn
      | cons c rest =>
        by_cases hp : p c
        · simp [runRE, hp] at hn
          subst hn
          simp
        · simp [runRE, hp] at hn
    | eps =>
      simp [runRE] at hn
      subst hn
      simp
    | wb =>
      by_cases hbd : atBoundary prev s
      · simp [runRE, hbd] at hn
        subst hn
        simp
      · simp [runRE, hbd] at hn
    | seq a b =>
      simp only [runRE, List.mem_flatMap, List.mem_map] at hn
      obtain ⟨na, hna, m, hm, rfl⟩ := hn
      have h1 := ih a prev s na hna
      have h2 := ih b (charBefore prev s na) (s.drop na) m hm
      rw [List.length_drop] at h2
      omega
    | alt a b =>
      simp only [runRE, List.mem_append] at hn
      rcases hn with hn | hn
      · exact ih a prev s n hn
      · exact ih b prev s n hn
    | rep r1 lo hi =>
      have hmore : ∀ m ∈ (runRE fuel r1 prev s).flatMap (fun n1 =>
          if n1 = 0 then []
          else
            (runRE fuel (.rep r1 (lo - 1) (hi.map (fun h => h - 1))) (charBefore prev s n1)
                (s.drop n1)).map (fun m => n1 + m)), m ≤ s.length := by
        intro m hm
        simp only [List.mem_flatMap, List.mem_map] at hm
        obtain ⟨n1, hn1, hm⟩ := hm
        by_cases h0 : n1 = 0
        · simp [h0] at hm
        · simp only [if_neg h0, List.mem_map] at hm
          obtain ⟨m2, hm2, rfl⟩ := hm
          have h1 := ih r1 prev s n1 hn1
          have h2 := ih (.rep r1 (lo - 1) (hi.map (fun h => h - 1)))
            (charBefore prev s n1) (s.drop n1) m2 hm2
          rw [List.length_drop] at h2
          omega
      match hi with
      | none =>
        simp only [runRE] at hn
        by_cases hl : lo = 0
        · rw [if_pos hl] at hn
          rcases List.mem_append.mp hn with hn | hn
          · exact hmore n hn
          · simp at hn
            subst hn
            simp
        · rw [if_neg hl] at hn
          exact hmore n hn
      | some 0 =>
        simp only [runRE] at hn
        simp at hn
        subst hn
        simp
      | some (h + 1) =>
        simp only [runRE] at hn
        by_cases hl : lo = 0
        · rw [if_pos hl] at hn
          rcases List.mem_append.mp hn with hn | hn
          · exact hmore n hn
          · simp at hn
            subst hn
            simp
        · rw [if_neg hl] at hn
          exact hmore n hn

/-- Structural size of a regex, used to budget the engine's fuel. -/
def reSize : RE → Nat
  | .cls _ => 1
  | .eps => 1
  | .wb => 1
  | .seq a b => reSize a + reSize b + 1
  | .alt a b => reSize a + reSize b + 1
  | .rep r _ _ => reSize r + 1

/-- Fuel bound: the backtracking depth is at most one regex level per node
plus one full descent per consumed character. -/
def matchFuel (r : RE) (len : Nat) : Nat := (reSize r + 1) * (len + 2)

/-- Python `pattern.match(text, pos)`: the first (highest-priority) match
length at `pos`, if any. -/
def matchAt (r : RE) (text : PyStr) (pos : Nat) : Option Nat :=
  (runRE (matchFuel r text.length) r (if pos = 0 then none else text[pos - 1]?)
    (text.drop pos)).head?

/-- The scanning loop of `re.finditer`: leftmost matches, continuing after
each match's end (advancing at least one position). -/
def finditerGo (r : RE) (text : PyStr) : Nat → Nat → List (Nat × Nat)
  | _, 0 => []
  | pos, fuel + 1 =>
    if text.length < pos then []
    else
      match matchAt r text pos with
      | some n => (pos, pos + n) :: finditerGo r text (pos + max n 1) fuel
      | none => finditerGo r text (pos + 1) fuel

/-- `re.finditer(pattern, text)`: list of `(start, end)` spans. -/
def finditer (r : RE) (text : PyStr) : List (Nat × Nat) :=
  finditerGo r text 0 (text.length + 1)

lemma matchAt_le {r : RE} {text : PyStr} {pos n : Nat} (h : matchAt r text pos = some n) :
    n ≤ text.length - pos := by
  obtain ⟨ys, hys⟩ := List.head?_eq_some_iff.mp h
  have hmem : n ∈ runRE (matchFuel r text.length) r
      (if pos = 0 then none else text[pos - 1]?) (text.drop pos) := by
    rw [hys]
    exact List.mem_cons_self n ys
  have := runRE_le _ _ _ _ n hmem
  rwa [List.length_drop] at this

lemma finditerGo_valid (r : RE) (text : PyStr) : ∀ (fuel pos : Nat),
    ∀ sp ∈ finditerGo r text pos fuel, sp.1 ≤ sp.2 ∧ sp.2 ≤ text.length
  | 0, pos, sp, hsp => by simp [finditerGo] at hsp
  | fuel + 1, pos, sp, hsp => by
    simp only [finditerGo] at hsp
    by_cases hle : text.length < pos
    · simp [hle] at hsp
    · rw [if_neg hle] at hsp
      cases hm : matchAt r text pos with
      | none =>
        rw [hm] at hsp
        exact finditerGo_valid r text fuel (pos + 1) sp hsp
      | some n =>
        rw [hm] at hsp
        rcases List.mem_cons.mp hsp with hsp | hsp
        · subst hsp
          have := matchAt_le hm
          constructor
          · omega
          · simp only []
            omega
        · exact finditerGo_valid r text fuel (pos + max n 1) sp hsp

lemma finditer_valid (r : RE) (text : PyStr) :
    ∀ sp ∈ finditer r text, sp.1 ≤ sp.2 ∧ sp.2 ≤ text.length :=
  finditerGo_valid r text (text.length + 1) 0

/-! ## The protection patterns (src/text_utils.py lines 13-22) -/

def reLitChar (c : Char) : RE := .cls (fun d => d.toLower = c.toLower)

def reLit (s : PyStr) : RE := s.foldr (fun c r => .seq (reLitChar c) r) .eps

def reSeq (l : List RE) : RE := l.foldr .seq .eps

def reAlts : List RE → RE
  | [] => .cls (fun _ => false)
  | [r] => r
  | r :: rest => .alt r (reAlts rest)

def reOpt (r : RE) : RE := .rep r 0 (some 1)

def rePlus (r : RE) : RE := .rep r 1 none

/-- `\d+(?:[.,]\d+)?` (shared by MEASURE / DIMENSION / PERCENT). -/
def reNum : RE :=
  reSeq [rePlus (.cls Char.isDigit),
    reOpt (reSeq [.cls (fun c => c = '.' || c = ','), rePlus (.cls Char.isDigit)])]

/-- `\s?`. -/
def reSpaceOpt : RE := reOpt (.cls isPySpace)

/-- `\b[A-Z]\d{4,}(?:\s?\d{2,}){0,6}\b` (IGNORECASE). -/
def reSKU : RE :=
  reSeq [.wb, .cls Char.isAlpha, .rep (.cls Char.isDigit) 4 none,
    .rep (reSeq [reSpaceOpt, .rep (.cls Char.isDigit) 2 none]) 0 (some 6), .wb]

/-- `\b[A-Z0-9]{6,}\b` (IGNORECASE). -/
def reALNUM : RE := reSeq [.wb, .rep (.cls Char.isAlphanum) 6 none, .wb]

/-- `\b\d+(?:[.,]\d+)?\s?(?:mm|cm|m|in|inch|kg|g)\b`. -/
def reMEASURE : RE :=
  reSeq [.wb, reNum, reSpaceOpt,
    reAlts [reLit ("mm").data, reLit ("cm").data, reLit ("m").data, reLit ("in").data,
      reLit ("inch").data, reLit ("kg").data, reLit ("g").data], .wb]

/-- `\b\d+(?:[.,]\d+)?\s?[x×]\s?\d+(?:[.,]\d+)?(?:\s?(?:mm|cm|m|in|inch))?\b`. -/
def reDIMENSION : RE :=
  reSeq [.wb, reNum, reSpaceOpt, .cls (fun c => c.toLower = 'x' || c = '×'), reSpaceOpt, reNum,
    reOpt (reSeq [reSpaceOpt,
      reAlts [reLit ("mm").data, reLit ("cm").data, reLit ("m").data, reLit ("in").data,
        reLit ("inch").data]]), .wb]

/-- `\b\d+(?:[.,]\d+)?\s?%\b`. -/
def rePERCENT : RE := reSeq [.wb, reNum, reSpaceOpt, .cls (fun c => c = '%'), .wb]

/-- `(?:R\$|\$|€)\s?\d+(?:[.,]\d+)*(?:[.,]\d+)?`. -/
def reMONEY : RE :=
  reSeq [reAlts [reLit ("R$").data, reLit ("$").data, reLit ("€").data], reSpaceOpt,
    rePlus (.cls Char.isDigit),
    .rep (reSeq [.cls (fun c => c = '.' || c = ','), rePlus (.cls Char.isDigit)]) 0 none,
    reOpt (reSeq [.cls (fun c => c = '.' || c = ','), rePlus (.cls Char.isDigit)])]

/-- `\b[A-Z0-9._%+-]+@[A-Z0-9.-]+\.[A-Z]{2,}\b` (IGNORECASE). -/
def reEMAIL : RE :=
  reSeq [.wb,
    rePlus (.cls (fun c => c.isAlphanum || c = '.' || c = '_' || c = '%' || c = '+' || c = '-')),
    .cls (fun c => c = '@'), rePlus (.cls (fun c => c.isAlphanum || c = '.' || c = '-')),
    .cls (fun c => c = '.'), .rep (.cls Char.isAlpha) 2 none, .wb]

/-- `\bhttps?://[^\s]+`. -/
def reURL : RE :=
  reSeq [.wb, reLit ("http").data, reOpt (reLitChar 's'), reLit ("://").data,
    rePlus (.cls (fun c => !(isPySpace c)))]

/-- `PROTECT_PATTERNS`, in source order. -/
def PROTECT_PATTERNS : List RE :=
  [reSKU, reALNUM, reMEASURE, reDIMENSION, rePERCENT, reMONEY, reEMAIL, reURL]

/-! ## `protect_text` / `restore_protected` (src/text_utils.py lines 53-102) -/

/-- A collected match: start offset, end offset, and the matched
substring. -/
structure Span where
  s : Nat
  e : Nat
  val : PyStr
deriving DecidableEq, Repr

/-- The match-collection loop of `protect_text`: all finditer spans of all
patterns, skipping spans shorter than 3 characters, recording
`text[s:e]`. -/
def collectMatches (text : PyStr) : List Span :=
  PROTECT_PATTERNS.flatMap (fun r =>
    (finditer r text).filterMap (fun sp =>
      if sp.2 - sp.1 < 3 then none else some ⟨sp.1, sp.2, pySlice text sp.1 sp.2⟩))

/-- `matches.sort(key=lambda x: (x[0], -(x[1]-x[0])))`: key order is start
ascending, then length descending. -/
def spanKeyLE (a b : Span) : Bool :=
  a.s < b.s || (a.s = b.s && (b.e - b.s) ≤ (a.e - a.s))

/-- Stable insertion for the Python (Timsort, stable) sort. -/
def insSorted (x : Span) : List Span → List Span
  | [] => [x]
  | y :: ys => if spanKeyLE y x then y :: insSorted x ys else x :: y :: ys

def pySortSpans (l : List Span) : List Span := l.foldl (fun acc x => insSorted x acc) []

/-- The de-overlap loop: keep a span iff its start is at or after the end
of the last kept span (`last_end` starts at `-1`). -/
def deoverlapGo : List Span → Int → List Span
  | [], _ => []
  | sp :: rest, last =>
    if last ≤ (sp.s : Int) then sp :: deoverlapGo rest (sp.e : Int)
    else deoverlapGo rest last

def deoverlap (l : List Span) : List Span := deoverlapGo l (-1)

def digitChar : Nat → Char
  | 0 => '0'
  | 1 => '1'
  | 2 => '2'
  | 3 => '3'
  | 4 => '4'
  | 5 => '5'
  | 6 => '6'
  | 7 => '7'
  | 8 => '8'
  | _ => '9'

/-- Decimal digits with structural fuel (`n < fuel` always holds at the
call sites, so the fuel-exhausted case is unreachable). -/
def natStrGo : Nat → Nat → PyStr
  | 0, _ => []
  | fuel + 1, n => if n < 10 then [digitChar n] else natStrGo fuel (n / 10) ++ [digitChar (n % 10)]

/-- Decimal digits of `n` (Python `str(n)` for the placeholder number). -/
def natStr (n : Nat) : PyStr := natStrGo (n + 1) n

lemma natStrGo_fuel : ∀ (fuel1 fuel2 n : Nat), n < fuel1 → n < fuel2 →
    natStrGo fuel1 n = natStrGo fuel2 n
  | 0, _, n, h1, _ => by omega
  | _ + 1, 0, n, _, h2 => by omega
  | fuel1 + 1, fuel2 + 1, n, h1, h2 => by
    simp only [natStrGo]
    by_cases h : n < 10
    · rw [if_pos h, if_pos h]
    · rw [if_neg h, if_neg h]
      have hlt : n / 10 < n := Nat.div_lt_self (by omega) (by omega)
      rw [natStrGo_fuel fuel1 fuel2 (n / 10) (by omega) (by omega)]

def kepHeader : PyStr := ['<', 'K', 'E', 'E', 'P', '_']

/-- `PLACEHOLDER_FMT = "<KEEP_{n}>"`. -/
def placeholder (n : Nat) : PyStr := kepHeader ++ natStr n ++ ['>']

structure ProtectedText where
  text : PyStr
  placeholder_to_original : List (PyStr × PyStr)
deriving DecidableEq, Repr

/-- The replacement loop of `protect_text`
(`for i, (s, e, val) in enumerate(reversed(non_overlapping))`): the python
loop splices the rightmost span first with placeholder number 0 and the
leftmost span last with number `k-1`; this recursion performs the same
splices (the recursive call handles the spans to the right first) and
builds `placeholder_to_original` in the same insertion order
(`<KEEP_0>` first). -/
def replFold (text : PyStr) : List Span → PyStr × List (PyStr × PyStr)
  | [] => (text, [])
  | sp :: rest =>
    let pr := replFold text rest
    (pr.1.take sp.s ++ placeholder rest.length ++ pr.1.drop sp.e,
      pr.2 ++ [(placeholder rest.length, sp.val)])

/-- `protect_text` (src/text_utils.py lines 53-92). -/
def protect_text (text : PyStr) : ProtectedText :=
  if text = [] then ⟨[], []⟩
  else
    let ms := collectMatches text
    let sorted := pySortSpans ms
    let non_overlapping := deoverlap sorted
    if non_overlapping = [] then ⟨text, []⟩
    else
      let pr := replFold text non_overlapping
      ⟨pr.1, pr.2⟩

/-- `restore_protected` (src/text_utils.py lines 95-102): replace each
placeholder by its original, iterating the dict in insertion order. -/
def restore_protected (text : PyStr) (m : List (PyStr × PyStr)) : PyStr :=
  if m = [] then text
  else m.foldl (fun out pr => replaceStr pr.1 pr.2 out) text

/-! ## C1: round-trip machinery

The key algebraic facts: the de-overlapped span list is an increasing chain
of disjoint valid spans; `replFold` produces the interleaving of untouched
text segments and placeholders; and `restore_protected` undoes it exactly
when the input text does not itself contain the placeholder header
`"<KEEP_"`, which is the hypothesis the counterexample below shows to be
necessary. -/

lemma digitChar_val {d : Nat} (h : d < 10) : (digitChar d).val.toNat = 48 + d := by
  interval_cases d <;> rfl

lemma digitChar_inj {a b : Nat} (ha : a < 10) (hb : b < 10) (h : digitChar a = digitChar b) :
    a = b := by
  have hv := congrArg (fun c => Char.toNat c) h
  simp only [Char.toNat] at hv
  rw [digitChar_val ha, digitChar_val hb] at hv
  omega

lemma natStr_lt' {n : Nat} (h : n < 10) : natStr n = [digitChar n] := by
  show natStrGo (n + 1) n = [digitChar n]
  rw [show natStrGo (n + 1) n
    = if n < 10 then [digitChar n] else natStrGo n (n / 10) ++ [digitChar (n % 10)] from rfl]
  rw [if_pos h]

lemma natStr_ge' {n : Nat} (h : ¬ n < 10) :
    natStr n = natStr (n / 10) ++ [digitChar (n % 10)] := by
  show natStrGo (n + 1) n = natStrGo (n / 10 + 1) (n / 10) ++ [digitChar (n % 10)]
  rw [show natStrGo (n + 1) n
    = if n < 10 then [digitChar n] else natStrGo n (n / 10) ++ [digitChar (n % 10)] from rfl]
  rw [if_neg h]
  have hlt : n / 10 < n := Nat.div_lt_self (by omega) (by omega)
  rw [natStrGo_fuel n (n / 10 + 1) (n / 10) (by omega) (by omega)]

lemma natStr_ne_nil (n : Nat) : natStr n ≠ [] := by
  by_cases h : n < 10
  · rw [natStr_lt' h]
    simp
  · rw [natStr_ge' h]
    simp

lemma mem_natStr_val : ∀ (n : Nat), ∀ c ∈ natStr n, 48 ≤ c.val.toNat ∧ c.val.toNat ≤ 57 := by
  intro n
  induction n using Nat.strong_induction_on with
  | _ n ih =>
    intro c hc
    by_cases h : n < 10
    · rw [natStr_lt' h] at hc
      simp at hc
      subst hc
      have := digitChar_val h
      omega
    · rw [natStr_ge' h] at hc
      rcases List.mem_append.mp hc with hc | hc
      · exact ih (n / 10) (Nat.div_lt_self (by omega) (by omega)) c hc
      · simp at hc
        subst hc
        have := digitChar_val (Nat.mod_lt n (show 0 < 10 by omega))
        omega

lemma mem_natStr_ne_gt {n : Nat} {c : Char} (hc : c ∈ natStr n) : c ≠ '>' := by
  intro h
  subst h
  have h2 := (mem_natStr_val n '>' hc).2
  have h3 : ('>' : Char).val.toNat = 62 := rfl
  omega

lemma mem_natStr_ne_lt {n : Nat} {c : Char} (hc : c ∈ natStr n) : c ≠ '<' := by
  intro h
  subst h
  have h2 := (mem_natStr_val n '<' hc).1
  have h4 := (mem_natStr_val n '<' hc).2
  have h3 : ('<' : Char).val.toNat = 60 := rfl
  omega

lemma natStr_inj : ∀ m : Nat, ∀ n : Nat, natStr m = natStr n → m = n := by
  intro m
  induction m using Nat.strong_induction_on with
  | _ m ih =>
    intro n h
    by_cases hm : m < 10 <;> by_cases hn : n < 10
    · rw [natStr_lt' hm, natStr_lt' hn] at h
      simp at h
      exact digitChar_inj hm hn h
    · rw [natStr_lt' hm, natStr_ge' hn] at h
      have hl := congrArg List.length h
      simp only [List.length_append, List.length_cons, List.length_nil] at hl
      have h0 : (natStr (n / 10)).length = 0 := by omega
      exact absurd (List.eq_nil_of_length_eq_zero h0) (natStr_ne_nil (n / 10))
    · rw [natStr_ge' hm, natStr_lt' hn] at h
      have hl := congrArg List.length h
      simp only [List.length_append, List.length_cons, List.length_nil] at hl
      have h0 : (natStr (m / 10)).length = 0 := by omega
      exact absurd (List.eq_nil_of_length_eq_zero h0) (natStr_ne_nil (m / 10))
    · rw [natStr_ge' hm, natStr_ge' hn] at h
      have hlen : (natStr (m / 10)).length = (natStr (n / 10)).length := by
        have hl := congrArg List.length h
        simp only [List.length_append, List.length_cons, List.length_nil] at hl
        omega
      obtain ⟨h1, h2⟩ := List.append_inj h hlen
      have hq : m / 10 = n / 10 := ih (m / 10) (Nat.div_lt_self (by omega) (by omega)) (n / 10) h1
      have hr : m % 10 = n % 10 := by
        simp only [List.cons.injEq, and_true] at h2
        exact digitChar_inj (Nat.mod_lt m (by omega)) (Nat.mod_lt n (by omega)) h2
      omega

lemma placeholder_ne_nil (n : Nat) : placeholder n ≠ [] := by
  simp [placeholder, kepHeader]

lemma kep_prefix_placeholder (n : Nat) : kepHeader <+: placeholder n :=
  ⟨natStr n ++ ['>'], by simp [placeholder]⟩

lemma placeholder_head (n : Nat) : ∃ t, placeholder n = '<' :: t :=
  ⟨'K' :: 'E' :: 'E' :: 'P' :: '_' :: (natStr n ++ ['>']), by simp [placeholder, kepHeader]⟩

lemma mem_placeholder_drop_one {n : Nat} {c : Char} (hc : c ∈ (placeholder n).drop 1) :
    c ≠ '<' := by
  simp only [placeholder, kepHeader] at hc
  simp at hc
  rcases hc with hc | hc | hc
  · subst hc; decide
  · subst hc; decide
  · rcases hc with hc | hc | hc | hc
    · subst hc; decide
    · subst hc; decide
    · exact mem_natStr_ne_lt hc
    · subst hc; decide

lemma digits_append_gt_inj : ∀ (a b w : PyStr), (∀ c ∈ a, c ≠ '>') → (∀ c ∈ b, c ≠ '>') →
    (a ++ ['>']) <+: (b ++ '>' :: w) → a = b := by
  intro a
  induction a with
  | nil =>
    intro b w _ hb hp
    cases b with
    | nil => rfl
    | cons d b2 =>
      obtain ⟨t, ht⟩ := hp
      simp only [List.nil_append, List.cons_append] at ht
      injection ht with h1 h2
      exact absurd h1.symm (hb d (List.mem_cons_self d b2))
  | cons c a2 ih =>
    intro b w ha hb hp
    cases b with
    | nil =>
      obtain ⟨t, ht⟩ := hp
      simp only [List.cons_append, List.nil_append] at ht
      injection ht with h1 h2
      exact absurd h1 (ha c (List.mem_cons_self c a2))
    | cons d b2 =>
      obtain ⟨t, ht⟩ := hp
      simp only [List.cons_append] at ht
      injection ht with h1 h2
      subst h1
      have : a2 = b2 := by
        refine ih b2 w (fun x hx => ha x (List.mem_cons_of_mem c hx))
          (fun x hx => hb x (List.mem_cons_of_mem c hx)) ⟨t, ?_⟩
        simpa [List.append_assoc] using h2
      rw [this]

/-- Two distinct placeholders never shadow each other: `<KEEP_j>` is not a
prefix of `<KEEP_n>` followed by anything, unless `j = n`. -/
lemma placeholder_not_prefix {j n : Nat} {w : PyStr} (hjn : j ≠ n) :
    ¬ placeholder j <+: (placeholder n ++ w) := by
  intro hp
  obtain ⟨t, ht⟩ := hp
  simp only [placeholder, List.append_assoc] at ht
  have ht2 : natStr j ++ (['>'] ++ t) = natStr n ++ (['>'] ++ w) := List.append_cancel_left ht
  have hpre : (natStr j ++ ['>']) <+: (natStr n ++ '>' :: w) := by
    refine ⟨t, ?_⟩
    simpa [List.append_assoc] using ht2
  have heq := digits_append_gt_inj (natStr j) (natStr n) w
    (fun c hc => mem_natStr_ne_gt hc) (fun c hc => mem_natStr_ne_gt hc) hpre
  exact hjn (natStr_inj j n heq)

/-! ### Occurrence lemmas for `replaceStr` -/

lemma infix_of_prefix_drop {p s : PyStr} {i : Nat} (h : p <+: s.drop i) : p <:+: s :=
  List.infix_iff_prefix_suffix.mpr ⟨s.drop i, h, List.drop_suffix i s⟩

lemma kep_not_prefix_drop {text : PyStr} (hK : ¬ kepHeader <:+: text) (i : Nat) :
    ¬ kepHeader <+: text.drop i := fun h => hK (infix_of_prefix_drop h)

lemma kep_pre_of_placeholder_pre {j : Nat} {X : PyStr} (h : placeholder j <+: X) :
    kepHeader <+: X :=
  (kep_prefix_placeholder j).trans h

lemma replaceStrGo_cons (p v : PyStr) (fuel : Nat) (c : Char) (rest : PyStr) :
    replaceStrGo p v (fuel + 1) (c :: rest)
      = if p ≠ [] ∧ p.isPrefixOf (c :: rest) then
          v ++ replaceStrGo p v fuel ((c :: rest).drop p.length)
        else c :: replaceStrGo p v fuel rest := rfl

/-- The fuel does not matter as long as it dominates the string length. -/
lemma replaceStrGo_fuel (p v : PyStr) : ∀ (fuel1 fuel2 : Nat) (s : PyStr),
    s.length ≤ fuel1 → s.length ≤ fuel2 → replaceStrGo p v fuel1 s = replaceStrGo p v fuel2 s
  | 0, fuel2, s, h1, _ => by
    have hs : s = [] := List.eq_nil_of_length_eq_zero (by omega)
    subst hs
    cases fuel2 <;> rfl
  | fuel1 + 1, 0, s, _, h2 => by
    have hs : s = [] := List.eq_nil_of_length_eq_zero (by omega)
    subst hs
    rfl
  | _ + 1, _ + 1, [], _, _ => rfl
  | fuel1 + 1, fuel2 + 1, c :: rest, h1, h2 => by
    rw [replaceStrGo_cons, replaceStrGo_cons]
    by_cases hc : p ≠ [] ∧ p.isPrefixOf (c :: rest)
    · rw [if_pos hc, if_pos hc]
      have hplen : 1 ≤ p.length := List.length_pos.mpr hc.1
      simp only [List.length_cons] at h1 h2
      rw [replaceStrGo_fuel p v fuel1 fuel2 ((c :: rest).drop p.length)
        (by simp only [List.length_drop, List.length_cons]; omega)
        (by simp only [List.length_drop, List.length_cons]; omega)]
    · rw [if_neg hc, if_neg hc]
      simp only [List.length_cons] at h1 h2
      rw [replaceStrGo_fuel p v fuel1 fuel2 rest (by omega) (by omega)]

lemma replaceStr_cons_neg {p v : PyStr} {c : Char} {rest : PyStr} (h : ¬ p <+: (c :: rest)) :
    replaceStr p v (c :: rest) = c :: replaceStr p v rest := by
  show replaceStrGo p v (rest.length + 1) (c :: rest) = c :: replaceStrGo p v rest.length rest
  rw [replaceStrGo_cons]
  rw [if_neg]
  intro hcond
  exact h (List.isPrefixOf_iff_prefix.mp hcond.2)

lemma replaceStr_eq_of_no_occ {p v : PyStr} : ∀ s : PyStr, (∀ i, ¬ p <+: s.drop i) →
    replaceStr p v s = s := by
  intro s
  induction s with
  | nil => intro _; rfl
  | cons c rest ih =>
    intro h
    rw [replaceStr_cons_neg (by simpa using h 0)]
    rw [ih (fun i => by simpa using h (i + 1))]

lemma replaceStr_append_of_no_occ {p v : PyStr} : ∀ (u w : PyStr),
    (∀ i, i < u.length → ¬ p <+: ((u ++ w).drop i)) →
    replaceStr p v (u ++ w) = u ++ replaceStr p v w := by
  intro u
  induction u with
  | nil => intro w _; simp
  | cons c u2 ih =>
    intro w h
    have h0 : ¬ p <+: (c :: (u2 ++ w)) := by simpa using h 0 (by simp)
    simp only [List.cons_append]
    rw [replaceStr_cons_neg h0]
    rw [ih w (fun i hi => by simpa using h (i + 1) (by simp; omega))]

lemma replaceStr_head {p v : PyStr} (hp : p ≠ []) (w : PyStr) :
    replaceStr p v (p ++ w) = v ++ replaceStr p v w := by
  cases p with
  | nil => exact absurd rfl hp
  | cons c p2 =>
    show replaceStrGo (c :: p2) v ((p2 ++ w).length + 1) (c :: (p2 ++ w))
      = v ++ replaceStrGo (c :: p2) v w.length w
    rw [replaceStrGo_cons]
    rw [if_pos ⟨hp, List.isPrefixOf_iff_prefix.mpr ⟨w, by simp⟩⟩]
    have hdropw : (c :: (p2 ++ w)).drop (c :: p2).length = w := by
      show (c :: (p2 ++ w)).drop (p2.length + 1) = w
      have hsh : (c :: (p2 ++ w)) = (c :: p2) ++ w := by simp
      rw [hsh]
      exact List.drop_left' (by simp)
    rw [hdropw]
    congr 1
    exact replaceStrGo_fuel (c :: p2) v ((p2 ++ w).length) w.length w (by simp) (le_refl _)

/-! ### Slice algebra -/

lemma pySlice_append_drop {t : PyStr} {a b : Nat} (hab : a ≤ b) :
    pySlice t a b ++ t.drop b = t.drop a := by
  by_cases hb : b ≤ t.length
  · have h1 : a ≤ (t.take b).length := by
      simp only [List.length_take]
      omega
    show (t.take b).drop a ++ t.drop b = t.drop a
    conv_rhs => rw [← List.take_append_drop b t]
    rw [List.drop_append_of_le_length h1]
  · push_neg at hb
    have ht : t.take b = t := List.take_of_length_le (by omega)
    have hd : t.drop b = [] := List.drop_eq_nil_of_le (by omega)
    simp [pySlice, ht, hd]

lemma pySlice_concat {t : PyStr} {a b c : Nat} (hab : a ≤ b) (hbc : b ≤ c) :
    pySlice t a b ++ pySlice t b c = pySlice t a c := by
  by_cases hl : a ≤ (t.take b).length
  · have h1 : (t.take c).take b = t.take b := by
      rw [List.take_take, Nat.min_eq_left hbc]
    show (t.take b).drop a ++ (t.take c).drop b = (t.take c).drop a
    conv_rhs => rw [← List.take_append_drop b (t.take c), h1]
    rw [List.drop_append_of_le_length hl]
  · push_neg at hl
    simp only [List.length_take] at hl
    have hlen : t.length < a := by omega
    show (t.take b).drop a ++ (t.take c).drop b = (t.take c).drop a
    have e1 : (t.take b).length ≤ a := by
      simp only [List.length_take]
      omega
    have e2 : (t.take c).length ≤ b := by
      simp only [List.length_take]
      omega
    have e3 : (t.take c).length ≤ a := by
      simp only [List.length_take]
      omega
    rw [List.drop_eq_nil_of_le e1, List.drop_eq_nil_of_le e2, List.drop_eq_nil_of_le e3]
    rfl

lemma pySlice_zero_drop (t : PyStr) : pySlice t 0 t.length = t := by
  simp [pySlice]

lemma pySlice_part (t : PyStr) (a b : Nat) : pySlice t a b <:+: t :=
  List.infix_iff_suffix_prefix.mpr ⟨t.take b, List.drop_suffix a (t.take b),
    List.take_prefix b t⟩

/-! ### No spurious placeholder occurrences

An occurrence of `<KEEP_j>` inside the protected text must be one of the
inserted placeholders: it cannot start inside a copied text segment (the
text contains no `"<KEEP_"` by hypothesis, and at a segment/placeholder
junction the next character is `<`, which `"<KEEP_"` only has at position
0), and it cannot start inside or at a different placeholder `<KEEP_n>`. -/

lemma noOcc_in_slice_part {text : PyStr} (hK : ¬ kepHeader <:+: text) {u : PyStr}
    (hu : u <:+: text) (j : Nat) (T : PyStr) :
    ∀ i, i < u.length → ¬ placeholder j <+: (u.drop i ++ '<' :: T) := by
  intro i hi hp
  have hkp : kepHeader <+: (u.drop i ++ '<' :: T) := kep_pre_of_placeholder_pre hp
  have h6 : kepHeader = (u.drop i ++ '<' :: T).take 6 := by
    have h0 := List.prefix_iff_eq_take.mp hkp
    rwa [show kepHeader.length = 6 from rfl] at h0
  by_cases hcase : 6 ≤ u.length - i
  · have hlen6 : 6 ≤ (u.drop i).length := by
      simp only [List.length_drop]
      omega
    have htake : (u.drop i ++ '<' :: T).take 6 = (u.drop i).take 6 :=
      List.take_append_of_le_length hlen6
    have hpref : kepHeader <+: u.drop i := by
      rw [h6, htake]
      exact List.take_prefix 6 (u.drop i)
    exact hK (hpref.isInfix.trans ((List.drop_suffix i u).isInfix.trans hu))
  · push_neg at hcase
    have hdroplen : (u.drop i).length = u.length - i := by simp
    have hsplit : (u.drop i ++ '<' :: T).take 6
        = u.drop i ++ ('<' :: T).take (6 - (u.length - i)) := by
      rw [List.take_append_eq_append_take, List.take_of_length_le (by omega), hdroplen]
    have happ : kepHeader.drop (u.length - i) = ('<' :: T).take (6 - (u.length - i)) := by
      rw [h6, hsplit, List.drop_left' hdroplen]
    have hhead : (kepHeader.drop (u.length - i)).head? = some '<' := by
      rw [happ]
      cases h' : 6 - (u.length - i) with
      | zero => omega
      | succ k => simp
    have h1 : 1 ≤ u.length - i := by omega
    set m := u.length - i with hm
    have h5 : m ≤ 5 := by omega
    have h1' : 1 ≤ m := h1
    interval_cases m <;> simp [kepHeader] at hhead

lemma noOcc_in_prefix {text : PyStr} (hK : ¬ kepHeader <:+: text) {a b n j : Nat}
    (hjn : j ≠ n) :
    ∀ (X : PyStr) (i : Nat), i < (pySlice text a b ++ placeholder n).length →
      ¬ placeholder j <+: ((pySlice text a b ++ placeholder n ++ X).drop i) := by
  intro X i hi hp
  rw [List.append_assoc] at hp
  by_cases his : i < (pySlice text a b).length
  · obtain ⟨t0, ht0⟩ := placeholder_head n
    rw [List.drop_append_of_le_length (le_of_lt his)] at hp
    rw [ht0] at hp
    simp only [List.cons_append] at hp
    exact noOcc_in_slice_part hK (pySlice_part text a b) j (t0 ++ X) i his hp
  · push_neg at his
    have hq : i - (pySlice text a b).length < (placeholder n).length := by
      rw [List.length_append] at hi
      omega
    have hdrop : (pySlice text a b ++ (placeholder n ++ X)).drop i
        = (placeholder n).drop (i - (pySlice text a b).length) ++ X := by
      conv_lhs =>
        rw [show i = (pySlice text a b).length + (i - (pySlice text a b).length) by omega]
      rw [List.drop_append]
      exact List.drop_append_of_le_length (le_of_lt hq)
    rw [hdrop] at hp
    by_cases hq0 : i - (pySlice text a b).length = 0
    · rw [hq0, List.drop_zero] at hp
      exact placeholder_not_prefix hjn hp
    · obtain ⟨c, r, hcr⟩ : ∃ c r, (placeholder n).drop (i - (pySlice text a b).length) = c :: r := by
        cases hh : (placeholder n).drop (i - (pySlice text a b).length) with
        | nil =>
          rw [List.drop_eq_nil_iff] at hh
          omega
        | cons c r => exact ⟨c, r, rfl⟩
      have hcmem : c ∈ (placeholder n).drop 1 := by
        have hdd : (placeholder n).drop (i - (pySlice text a b).length)
            = ((placeholder n).drop 1).drop (i - (pySlice text a b).length - 1) := by
          rw [List.drop_drop]
          congr 1
          omega
        have hc1 : c ∈ (placeholder n).drop (i - (pySlice text a b).length) := by
          rw [hcr]
          exact List.mem_cons_self c r
        rw [hdd] at hc1
        exact List.mem_of_mem_drop hc1
      have hcne := mem_placeholder_drop_one hcmem
      obtain ⟨t0, ht0⟩ := placeholder_head j
      rw [hcr, ht0] at hp
      obtain ⟨t, ht⟩ := hp
      simp only [List.cons_append] at ht
      injection ht with hhd _
      exact hcne hhd.symm

/-! ### The canonical interleaved form of the protected text -/

/-- The de-overlapped spans form an increasing chain of disjoint intervals
starting at or after `lo`. -/
def chainFrom : Nat → List Span → Prop
  | _, [] => True
  | lo, sp :: rest => lo ≤ sp.s ∧ chainFrom sp.e rest

/-- Every span is well-formed: within the text, and carrying exactly the
text it covers. -/
def spansValid (text : PyStr) (l : List Span) : Prop :=
  ∀ sp ∈ l, sp.s ≤ sp.e ∧ sp.e ≤ text.length ∧ sp.val = pySlice text sp.s sp.e

/-- The protected text from offset `from_` on: untouched segments
interleaved with placeholders, numbered downward ending at `off`. -/
def canonFrom (off : Nat) (text : PyStr) : Nat → List Span → PyStr
  | from_, [] => text.drop from_
  | from_, sp :: rest =>
    pySlice text from_ sp.s ++ placeholder (rest.length + off) ++ canonFrom off text sp.e rest

/-- The restore map in insertion order (`<KEEP_off>` first). -/
def mapOfAux (off : Nat) : List Span → List (PyStr × PyStr)
  | [] => []
  | sp :: rest => mapOfAux off rest ++ [(placeholder (rest.length + off), sp.val)]

lemma chainFrom_mono : ∀ (l : List Span) (a b : Nat), b ≤ a → chainFrom a l → chainFrom b l
  | [], _, _, _, _ => trivial
  | sp :: rest, a, b, hba, h => ⟨le_trans hba h.1, h.2⟩

lemma chainFrom_head : ∀ {l : List Span} {a : Nat}, chainFrom a l →
    ∀ sp, l.head? = some sp → a ≤ sp.s := by
  intro l a h sp hsp
  cases l with
  | nil => simp at hsp
  | cons sp2 rest =>
    simp at hsp
    subst hsp
    exact h.1

lemma replFold_snd (text : PyStr) : ∀ l, (replFold text l).2 = mapOfAux 0 l := by
  intro l
  induction l with
  | nil => rfl
  | cons sp rest ih => simp [replFold, mapOfAux, ih]

lemma canonFrom_shift {off : Nat} {text : PyStr} {a b : Nat} (hab : a ≤ b) :
    ∀ l : List Span, (∀ sp, l.head? = some sp → b ≤ sp.s) →
      pySlice text a b ++ canonFrom off text b l = canonFrom off text a l
  | [], _ => pySlice_append_drop hab
  | sp :: rest, h => by
    have hbs : b ≤ sp.s := h sp rfl
    show pySlice text a b ++ (pySlice text b sp.s ++ placeholder (rest.length + off)
        ++ canonFrom off text sp.e rest) = pySlice text a sp.s
        ++ placeholder (rest.length + off) ++ canonFrom off text sp.e rest
    simp only [← List.append_assoc]
    rw [pySlice_concat hab hbs]

lemma length_pySlice_of_le {text : PyStr} {a b : Nat} (hab : a ≤ b) (hb : b ≤ text.length) :
    (pySlice text a b).length = b - a := by
  simp only [pySlice, List.length_drop, List.length_take]
  omega

/-- `replFold` computes the canonical interleaving. -/
lemma replFold_fst (text : PyStr) : ∀ l, chainFrom 0 l → spansValid text l →
    (replFold text l).1 = canonFrom 0 text 0 l := by
  intro l
  induction l with
  | nil => intro _ _; rfl
  | cons sp rest ih =>
    intro hch hval
    obtain ⟨h0s, hch2⟩ := hch
    obtain ⟨hse, helen, hveq⟩ := hval sp (List.mem_cons_self sp rest)
    have hvrest : spansValid text rest := fun x hx => hval x (List.mem_cons_of_mem sp hx)
    have hchrest0 : chainFrom 0 rest := chainFrom_mono rest sp.e 0 (Nat.zero_le _) hch2
    simp only [replFold]
    rw [ih hchrest0 hvrest]
    have hshift : pySlice text 0 sp.e ++ canonFrom 0 text sp.e rest = canonFrom 0 text 0 rest :=
      canonFrom_shift (Nat.zero_le _) rest (fun x hx => chainFrom_head hch2 x hx)
    rw [← hshift]
    have hslen : (pySlice text 0 sp.e).length = sp.e :=
      by simpa using length_pySlice_of_le (Nat.zero_le sp.e) helen
    have htk : (pySlice text 0 sp.e ++ canonFrom 0 text sp.e rest).take sp.s
        = text.take sp.s := by
      rw [List.take_append_of_le_length (by omega)]
      show ((text.take sp.e).drop 0).take sp.s = text.take sp.s
      rw [List.drop_zero, List.take_take, Nat.min_eq_left hse]
    have hdr : (pySlice text 0 sp.e ++ canonFrom 0 text sp.e rest).drop sp.e
        = canonFrom 0 text sp.e rest := List.drop_left' hslen
    rw [htk, hdr]
    show text.take sp.s ++ placeholder rest.length ++ canonFrom 0 text sp.e rest
      = pySlice text 0 sp.s ++ placeholder (rest.length + 0) ++ canonFrom 0 text sp.e rest
    simp [pySlice]

lemma mem_mapOfAux_key {off : Nat} : ∀ {l : List Span} {en : PyStr × PyStr},
    en ∈ mapOfAux off l → ∃ jj, off ≤ jj ∧ jj < off + l.length ∧ en.1 = placeholder jj := by
  intro l
  induction l with
  | nil =>
    intro en h
    simp [mapOfAux] at h
  | cons sp rest ih =>
    intro en h
    simp only [mapOfAux] at h
    rcases List.mem_append.mp h with h | h
    · obtain ⟨jj, h1, h2, h3⟩ := ih h
      refine ⟨jj, h1, ?_, h3⟩
      simp only [List.length_cons]
      omega
    · simp at h
      refine ⟨rest.length + off, by omega, ?_, by rw [h]⟩
      simp only [List.length_cons]
      omega

/-- Occurrences of any placeholder cannot start inside a copied slice that
is followed by a placeholder. -/
lemma noOcc_in_slice_before_ph {text : PyStr} (hK : ¬ kepHeader <:+: text)
    {a b : Nat} (n j : Nat) (X : PyStr) :
    ∀ i, i < (pySlice text a b).length →
      ¬ placeholder j <+: ((pySlice text a b ++ (placeholder n ++ X)).drop i) := by
  intro i hi hp
  obtain ⟨t0, ht0⟩ := placeholder_head n
  rw [List.drop_append_of_le_length (le_of_lt hi)] at hp
  rw [ht0] at hp
  simp only [List.cons_append] at hp
  exact noOcc_in_slice_part hK (pySlice_part text a b) j (t0 ++ X) i hi hp

/-- Earlier restore steps (for other placeholder numbers) leave a frozen
`segment ++ placeholder` prefix untouched. -/
lemma foldl_replace_push {text : PyStr} (hK : ¬ kepHeader <:+: text) {a b n : Nat} :
    ∀ (entries : List (PyStr × PyStr)),
      (∀ en ∈ entries, ∃ jj, jj ≠ n ∧ en.1 = placeholder jj) →
      ∀ X : PyStr,
        entries.foldl (fun out pr => replaceStr pr.1 pr.2 out)
            (pySlice text a b ++ placeholder n ++ X)
          = pySlice text a b ++ placeholder n ++
              entries.foldl (fun out pr => replaceStr pr.1 pr.2 out) X := by
  intro entries
  induction entries with
  | nil => intro _ X; rfl
  | cons en rest ih =>
    intro h X
    simp only [List.foldl_cons]
    obtain ⟨jj, hjn, hkey⟩ := h en (List.mem_cons_self en rest)
    have hstep : replaceStr en.1 en.2 (pySlice text a b ++ placeholder n ++ X)
        = pySlice text a b ++ placeholder n ++ replaceStr en.1 en.2 X := by
      rw [hkey]
      exact replaceStr_append_of_no_occ (pySlice text a b ++ placeholder n) X
        (fun i hi => noOcc_in_prefix hK hjn X i hi)
    rw [hstep, ih (fun x hx => h x (List.mem_cons_of_mem en hx)) (replaceStr en.1 en.2 X)]

/-- Restoring the map over the canonical form yields the untouched text. -/
lemma restore_canon {text : PyStr} (hK : ¬ kepHeader <:+: text) :
    ∀ (l : List Span) (off from_ : Nat), chainFrom from_ l → spansValid text l →
      (mapOfAux off l).foldl (fun out pr => replaceStr pr.1 pr.2 out)
          (canonFrom off text from_ l)
        = text.drop from_ := by
  intro l
  induction l with
  | nil => intro off from_ _ _; rfl
  | cons sp rest ih =>
    intro off from_ hch hval
    obtain ⟨hfs, hch2⟩ := hch
    obtain ⟨hse, helen, hveq⟩ := hval sp (List.mem_cons_self sp rest)
    have hvrest : spansValid text rest := fun x hx => hval x (List.mem_cons_of_mem sp hx)
    simp only [mapOfAux, canonFrom]
    rw [List.foldl_append]
    have hkeys : ∀ en ∈ mapOfAux off rest, ∃ jj, jj ≠ rest.length + off
        ∧ en.1 = placeholder jj := by
      intro en hen
      obtain ⟨jj, h1, h2, h3⟩ := mem_mapOfAux_key hen
      exact ⟨jj, by omega, h3⟩
    rw [foldl_replace_push hK (mapOfAux off rest) hkeys (canonFrom off text sp.e rest)]
    rw [ih off sp.e hch2 hvrest]
    simp only [List.foldl_cons, List.foldl_nil]
    rw [List.append_assoc]
    rw [replaceStr_append_of_no_occ (pySlice text from_ sp.s)
      (placeholder (rest.length + off) ++ text.drop sp.e)
      (fun i hi => noOcc_in_slice_before_ph hK (rest.length + off) (rest.length + off)
        (text.drop sp.e) i hi)]
    rw [replaceStr_head (placeholder_ne_nil (rest.length + off)) (text.drop sp.e)]
    rw [replaceStr_eq_of_no_occ (text.drop sp.e) (fun i hp => by
      rw [List.drop_drop] at hp
      exact kep_not_prefix_drop hK (sp.e + i) (kep_pre_of_placeholder_pre hp))]
    rw [hveq, pySlice_append_drop hse, pySlice_append_drop hfs]

/-! ### Validity and chain structure of the de-overlapped spans -/

lemma collectMatches_valid (text : PyStr) : spansValid text (collectMatches text) := by
  intro sp hsp
  simp only [collectMatches, List.mem_flatMap, List.mem_filterMap] at hsp
  obtain ⟨r, _, a, ha, heq⟩ := hsp
  by_cases h3 : a.2 - a.1 < 3
  · simp [h3] at heq
  · simp only [if_neg h3] at heq
    obtain ⟨h1, h2⟩ := finditer_valid r text a ha
    injection heq with heq
    rw [← heq]
    exact ⟨h1, h2, rfl⟩

lemma mem_insSorted {x y : Span} : ∀ {l : List Span}, y ∈ insSorted x l → y = x ∨ y ∈ l := by
  intro l
  induction l with
  | nil =>
    intro h
    simp [insSorted] at h
    exact Or.inl h
  | cons z zs ih =>
    intro h
    simp only [insSorted] at h
    by_cases hc : spanKeyLE z x
    · rw [if_pos hc] at h
      rcases List.mem_cons.mp h with h | h
      · exact Or.inr (h ▸ List.mem_cons_self z zs)
      · rcases ih h with h | h
        · exact Or.inl h
        · exact Or.inr (List.mem_cons_of_mem z h)
    · rw [if_neg hc] at h
      rcases List.mem_cons.mp h with h | h
      · exact Or.inl h
      · exact Or.inr h

lemma mem_pySortSpans {l : List Span} {x : Span} (h : x ∈ pySortSpans l) : x ∈ l := by
  suffices H : ∀ (l2 acc : List Span),
      ∀ y ∈ l2.foldl (fun acc x => insSorted x acc) acc, y ∈ acc ∨ y ∈ l2 by
    rcases H l [] x h with h2 | h2
    · simp at h2
    · exact h2
  intro l2
  induction l2 with
  | nil =>
    intro acc y hy
    exact Or.inl hy
  | cons z zs ih =>
    intro acc y hy
    simp only [List.foldl_cons] at hy
    rcases ih (insSorted z acc) y hy with h2 | h2
    · rcases mem_insSorted h2 with h2 | h2
      · exact Or.inr (h2 ▸ List.mem_cons_self z zs)
      · exact Or.inl h2
    · exact Or.inr (List.mem_cons_of_mem z h2)

lemma deoverlapGo_subset : ∀ (l : List Span) (last : Int), ∀ x ∈ deoverlapGo l last, x ∈ l
  | [], _, x, hx => by simp [deoverlapGo] at hx
  | sp :: rest, last, x, hx => by
    simp only [deoverlapGo] at hx
    by_cases hc : last ≤ (sp.s : Int)
    · rw [if_pos hc] at hx
      rcases List.mem_cons.mp hx with hx | hx
      · exact hx ▸ List.mem_cons_self sp rest
      · exact List.mem_cons_of_mem sp (deoverlapGo_subset rest (sp.e : Int) x hx)
    · rw [if_neg hc] at hx
      exact List.mem_cons_of_mem sp (deoverlapGo_subset rest last x hx)

/-- Chain structure over `Int` (the loop's `last_end` starts at `-1`). -/
def chainFromI : Int → List Span → Prop
  | _, [] => True
  | lo, sp :: rest => lo ≤ (sp.s : Int) ∧ chainFromI (sp.e : Int) rest

lemma deoverlapGo_chainI : ∀ (l : List Span) (last : Int), chainFromI last (deoverlapGo l last)
  | [], _ => trivial
  | sp :: rest, last => by
    simp only [deoverlapGo]
    by_cases hc : last ≤ (sp.s : Int)
    · rw [if_pos hc]
      exact ⟨hc, deoverlapGo_chainI rest (sp.e : Int)⟩
    · rw [if_neg hc]
      exact deoverlapGo_chainI rest last

lemma chainI_toNat : ∀ (l : List Span) (last : Int), chainFromI last l → chainFrom last.toNat l
  | [], _, _ => trivial
  | sp :: rest, last, h => by
    refine ⟨?_, ?_⟩
    · have h1 := h.1
      omega
    · have h2 := chainI_toNat rest (sp.e : Int) h.2
      simpa using h2

lemma deoverlap_chain (l : List Span) : chainFrom 0 (deoverlap l) := by
  have h := chainI_toNat _ (-1) (deoverlapGo_chainI l (-1))
  simpa using h

/-! ### The C1 theorems -/

/-- Executable check that `p` occurs as a contiguous substring of `s`. -/
def containsSub (p : PyStr) : PyStr → Bool
  | [] => p.isPrefixOf []
  | c :: rest => p.isPrefixOf (c :: rest) || containsSub p rest

lemma no_occ_of_containsSub_false {p : PyStr} : ∀ {s : PyStr}, containsSub p s = false →
    ∀ i, ¬ p <+: s.drop i := by
  intro s
  induction s with
  | nil =>
    intro h i hp
    rw [List.drop_eq_nil_of_eq_nil rfl] at hp
    rw [show containsSub p [] = p.isPrefixOf [] from rfl] at h
    rw [List.prefix_nil] at hp
    subst hp
    simp at h
  | cons c rest ih =>
    intro h i hp
    rw [show containsSub p (c :: rest) = (p.isPrefixOf (c :: rest) || containsSub p rest)
      from rfl, Bool.or_eq_false_iff] at h
    cases i with
    | zero =>
      rw [List.drop_zero] at hp
      rw [← List.isPrefixOf_iff_prefix] at hp
      rw [h.1] at hp
      exact Bool.false_ne_true hp
    | succ k =>
      exact ih h.2 k (by simpa using hp)

lemma not_infix_of_containsSub_false {p text : PyStr} (h : containsSub p text = false) :
    ¬ p <:+: text := by
  intro hinf
  obtain ⟨s2, t2, heq⟩ := hinf
  apply no_occ_of_containsSub_false h s2.length
  rw [← heq, List.append_assoc, List.drop_left]
  exact ⟨t2, rfl⟩

/-- C1 (amended): for every input text that does not contain the
placeholder header `"<KEEP_"` as a substring,
`restore_protected (protect_text text).text (protect_text text).placeholder_to_original`
reproduces `text` exactly — each protected span is recorded verbatim in the
restore map and reinserted by exact string substitution.  (The
counterexample below shows the hypothesis is necessary: the code does not
guarantee the placeholders avoid colliding with pre-existing text.) -/
theorem protect_restore_roundtrip (text : PyStr)
    (hK : containsSub kepHeader text = false) :
    restore_protected (protect_text text).text (protect_text text).placeholder_to_original
      = text := by
  have hKi : ¬ kepHeader <:+: text := not_infix_of_containsSub_false hK
  by_cases h0 : text = []
  · subst h0
    rfl
  · cases hnov : deoverlap (pySortSpans (collectMatches text)) with
    | nil =>
      have hpt : protect_text text = ⟨text, []⟩ := by
        unfold protect_text
        rw [if_neg h0]
        simp [hnov]
      rw [hpt]
      rfl
    | cons sp restl =>
      have hne : deoverlap (pySortSpans (collectMatches text)) ≠ [] := by
        rw [hnov]
        exact List.cons_ne_nil sp restl
      have hpt : protect_text text
          = ⟨(replFold text (deoverlap (pySortSpans (collectMatches text)))).1,
             (replFold text (deoverlap (pySortSpans (collectMatches text)))).2⟩ := by
        unfold protect_text
        rw [if_neg h0]
        simp only [if_neg hne]
      rw [hpt]
      have hch : chainFrom 0 (deoverlap (pySortSpans (collectMatches text))) :=
        deoverlap_chain _
      have hval : spansValid text (deoverlap (pySortSpans (collectMatches text))) :=
        fun x hx => collectMatches_valid text x
          (mem_pySortSpans (deoverlapGo_subset _ _ x hx))
      show restore_protected _ _ = text
      rw [replFold_fst text _ hch hval, replFold_snd]
      have hmne : mapOfAux 0 (deoverlap (pySortSpans (collectMatches text))) ≠ [] := by
        rw [hnov]
        simp [mapOfAux]
      unfold restore_protected
      rw [if_neg hmne]
      have hres := restore_canon hKi (deoverlap (pySortSpans (collectMatches text))) 0 0 hch hval
      simpa using hres

/-- Witness for C1 at a concrete input with a protected SKU code. -/
theorem protect_restore_roundtrip_witness :
    containsSub kepHeader ("A1234 ok").data = false ∧
      restore_protected (protect_text ("A1234 ok").data).text
          (protect_text ("A1234 ok").data).placeholder_to_original
        = ("A1234 ok").data :=
  ⟨by decide, protect_restore_roundtrip ("A1234 ok").data (by decide)⟩

/-- C1 counterexample: on the input `"<KEEP_0> ABC1234"` the code protects
`ABC1234` with the placeholder `<KEEP_0>`, which already occurs in the
text, so `restore_protected` substitutes both occurrences and returns
`"ABC1234 ABC1234"`, not the original text.  The claim's universal
round-trip equality is therefore false as stated. -/
theorem protect_restore_counterexample :
    restore_protected (protect_text ("<KEEP_0> ABC1234").data).text
        (protect_text ("<KEEP_0> ABC1234").data).placeholder_to_original
      ≠ ("<KEEP_0> ABC1234").data := by
  decide

/-! ## `apply_glossary_hard` (src/text_utils.py lines 33-50) -/

/-- `re.match(r"^[\w\-]+$", k)`: every character of the (nonempty) key is a
word character or hyphen. -/
def isWordHyphenStr (k : PyStr) : Bool :=
  !k.isEmpty && k.all (fun c => isWordChar c || c = '-')

/-- Splice replacements into the gaps between consecutive match spans
(`re.sub`'s output). -/
def subSplice (text v : PyStr) : List (Nat × Nat) → Nat → PyStr
  | [], f => text.drop f
  | sp :: rest, f => pySlice text f sp.1 ++ v ++ subSplice text v rest sp.2

/-- `re.sub(pattern, v, text)`: replace every (leftmost, non-overlapping)
match by `v`.  (Template escapes in `v` are not modelled; glossary targets
are plain text.) -/
def reSub (r : RE) (v text : PyStr) : PyStr := subSplice text v (finditer r text) 0

/-- Stable insertion for `sorted(keys, key=len, reverse=True)` (longer keys
first, ties in original order). -/
def insDesc (x : PyStr) : List PyStr → List PyStr
  | [] => [x]
  | y :: ys => if x.length ≤ y.length then y :: insDesc x ys else x :: y :: ys

def sortKeysDesc (l : List PyStr) : List PyStr := l.foldl (fun acc x => insDesc x acc) []

/-- `apply_glossary_hard`: enforce the glossary longest-key-first with a
case-insensitive substitution; single-word keys (`^[\w\-]+$`) get `\b`
word boundaries, multi-word keys are replaced as plain substrings. -/
def apply_glossary_hard (text : PyStr) (glossary : List (PyStr × PyStr)) : PyStr :=
  if glossary = [] then text
  else
    (sortKeysDesc (glossary.map Prod.fst)).foldl
      (fun out k =>
        if pyStrip k = [] then out
        else
          let v := (dictGet glossary k).getD []
          let pat := if isWordHyphenStr k then reSeq [.wb, reLit k, .wb] else reLit k
          reSub pat v out)
      text

lemma mem_insDesc {x y : PyStr} : ∀ {l : List PyStr}, y ∈ insDesc x l → y = x ∨ y ∈ l := by
  intro l
  induction l with
  | nil =>
    intro h
    simp [insDesc] at h
    exact Or.inl h
  | cons z zs ih =>
    intro h
    simp only [insDesc] at h
    by_cases hc : x.length ≤ z.length
    · rw [if_pos hc] at h
      rcases List.mem_cons.mp h with h | h
      · exact Or.inr (h ▸ List.mem_cons_self z zs)
      · rcases ih h with h | h
        · exact Or.inl h
        · exact Or.inr (List.mem_cons_of_mem z h)
    · rw [if_neg hc] at h
      rcases List.mem_cons.mp h with h | h
      · exact Or.inl h
      · exact Or.inr h

lemma insDesc_pairwise {x : PyStr} : ∀ {l : List PyStr},
    l.Pairwise (fun a b => b.length ≤ a.length) →
    (insDesc x l).Pairwise (fun a b => b.length ≤ a.length) := by
  intro l
  induction l with
  | nil =>
    intro _
    simp [insDesc]
  | cons y ys ih =>
    intro h
    rw [List.pairwise_cons] at h
    simp only [insDesc]
    by_cases hc : x.length ≤ y.length
    · rw [if_pos hc]
      rw [List.pairwise_cons]
      refine ⟨?_, ih h.2⟩
      intro z hz
      rcases mem_insDesc hz with hz | hz
      · exact hz ▸ hc
      · exact h.1 z hz
    · rw [if_neg hc]
      rw [List.pairwise_cons]
      refine ⟨?_, List.pairwise_cons.mpr h⟩
      intro z hz
      rcases List.mem_cons.mp hz with hz | hz
      · rw [hz]
        omega
      · have := h.1 z hz
        omega

lemma sortKeysDesc_pairwise (l : List PyStr) :
    (sortKeysDesc l).Pairwise (fun a b => b.length ≤ a.length) := by
  suffices H : ∀ (l2 acc : List PyStr), acc.Pairwise (fun a b => b.length ≤ a.length) →
      (l2.foldl (fun acc x => insDesc x acc) acc).Pairwise (fun a b => b.length ≤ a.length) by
    exact H l [] (by simp)
  intro l2
  induction l2 with
  | nil =>
    intro acc h
    exact h
  | cons z zs ih =>
    intro acc h
    simp only [List.foldl_cons]
    exact ih (insDesc z acc) (insDesc_pairwise h)

/-- C9: `apply_glossary_hard` processes glossary keys longest-first (the
key list it folds over is sorted by descending length), with
case-insensitive whole-word matching for single-word keys, so on the
spec's example the longer overlapping key wins: enforcing
{alça ↦ handle, alça de ombro ↦ shoulder strap} on
"a alça de ombro longa" yields "a shoulder strap longa" (the longer key's
replacement, with the shorter key never rewriting a substring of that
occurrence). -/
theorem apply_glossary_hard_longest_first :
    (∀ glossary : List (PyStr × PyStr),
        (sortKeysDesc (glossary.map Prod.fst)).Pairwise (fun a b => b.length ≤ a.length)) ∧
      apply_glossary_hard ("a alça de ombro longa").data
          [(("alça").data, ("handle").data), (("alça de ombro").data, ("shoulder strap").data)]
        = ("a shoulder strap longa").data :=
  ⟨fun glossary => sortKeysDesc_pairwise (glossary.map Prod.fst), by decide⟩

/-! ## PPTX adapter (src/pptx_translate.py)

python-pptx objects are modelled structurally; the byte-level parser and
serializer (`Presentation(BytesIO(..))` / `prs.save`) are oracle
parameters, so the theorems hold for every behaviour of python-pptx. -/

/-- Raw document bytes. -/
abbrev DocBytes := List Nat

/-- A paragraph, as its list of run texts (`para.text` concatenates
them). -/
structure PptxParagraph where
  runs : List PyStr

def paraText (p : PptxParagraph) : PyStr := p.runs.flatten

structure PptxTextFrame where
  paragraphs : List PptxParagraph

structure PptxTableCell where
  text_frame : PptxTextFrame

/-- A table: dimensions and a total cell accessor (python-pptx cells always
have a text frame, so the source's `if not cell.text_frame: continue` never
skips). -/
structure PptxTable where
  nrows : Nat
  ncols : Nat
  cell : Nat → Nat → PptxTableCell

inductive PptxShape where
  | table (t : PptxTable)
  | textFrame (tf : PptxTextFrame)
  | other

structure PptxSlide where
  shapes : List PptxShape

structure PptxPresentation where
  slides : List PptxSlide

/-- `PptxPointer` (src/pptx_translate.py lines 12-20). -/
structure PptxPointer where
  kind : PyStr
  slide_idx : Nat
  shape_idx : Nat
  para_idx : Nat
  row_idx : Option Nat := none
  col_idx : Option Nat := none

def pptxCellTid (s sh r c p : Nat) : PyStr :=
  ("s").data ++ natStr s ++ ("_sh").data ++ natStr sh ++ ("_cell").data ++ natStr r
    ++ ("_").data ++ natStr c ++ ("_p").data ++ natStr p

def pptxShapeTid (s sh p : Nat) : PyStr :=
  ("s").data ++ natStr s ++ ("_sh").data ++ natStr sh ++ ("_p").data ++ natStr p

/-- `extract_pptx_items` (src/pptx_translate.py lines 23-72): walk slides
and shapes; table shapes contribute every cell's nonempty paragraphs (and
are then skipped via `continue`), text-frame shapes contribute their
nonempty paragraphs; each with a stable id and a pointer. -/
def extract_pptx_items (prs : PptxPresentation) :
    List TranslationItem × List (PyStr × PptxPointer) :=
  let entries := (prs.slides.enum).flatMap (fun se =>
    ((se.2.shapes.enum).flatMap (fun she =>
      match she.2 with
      | .table t =>
        (List.range t.nrows).flatMap (fun r =>
          (List.range t.ncols).flatMap (fun c =>
            (((t.cell r c).text_frame.paragraphs.enum).filterMap (fun pe =>
              let txt := pyStrip (paraText pe.2)
              if txt = [] then none
              else some (TranslationItem.mk (pptxCellTid se.1 she.1 r c pe.1) txt,
                (pptxCellTid se.1 she.1 r c pe.1,
                  PptxPointer.mk (("cell_paragraph").data) se.1 she.1 pe.1 (some r) (some c)))))))
      | .textFrame tf =>
        (tf.paragraphs.enum).filterMap (fun pe =>
          let txt := pyStrip (paraText pe.2)
          if txt = [] then none
          else some (TranslationItem.mk (pptxShapeTid se.1 she.1 pe.1) txt,
            (pptxShapeTid se.1 she.1 pe.1,
              PptxPointer.mk (("shape_paragraph").data) se.1 she.1 pe.1 none none)))
      | .other => [])))
  (entries.map Prod.fst, entries.map Prod.snd)

/-- `_rewrite_paragraph_keep_first_run` (src/pptx_translate.py lines
75-89): write into the first run, blank the rest; add a run if none. -/
def rewriteParagraphKeepFirstRun (para : PptxParagraph) (new_text : PyStr) : PptxParagraph :=
  match para.runs with
  | [] => ⟨[new_text]⟩
  | _ :: rest => ⟨new_text :: rest.map (fun _ => [])⟩

def listModify : List α → Nat → (α → α) → List α
  | [], _, _ => []
  | x :: xs, 0, f => f x :: xs
  | x :: xs, i + 1, f => x :: listModify xs i f

/-- One pointer dereference and paragraph rewrite (indices produced by
extraction are always in range, so the total out-of-range no-op is never
exercised). -/
def rewriteCellPptx (cell : PptxTableCell) (pidx : Nat) (translated : PyStr) : PptxTableCell :=
  ⟨⟨listModify cell.text_frame.paragraphs pidx
      (fun para => rewriteParagraphKeepFirstRun para translated)⟩⟩

def rewriteShapePptx (shape : PptxShape) (ptr : PptxPointer) (translated : PyStr) : PptxShape :=
  if ptr.kind = ("cell_paragraph").data then
    match shape, ptr.row_idx, ptr.col_idx with
    | .table t, some r, some c =>
      .table ⟨t.nrows, t.ncols, fun r2 c2 =>
        if r2 = r ∧ c2 = c then rewriteCellPptx (t.cell r c) ptr.para_idx translated
        else t.cell r2 c2⟩
    | _, _, _ => shape
  else
    match shape with
    | .textFrame tf =>
      .textFrame ⟨listModify tf.paragraphs ptr.para_idx
          (fun para => rewriteParagraphKeepFirstRun para translated)⟩
    | _ => shape

def applyOnePptx (prs : PptxPresentation) (ptr : PptxPointer) (translated : PyStr) :
    PptxPresentation :=
  ⟨listModify prs.slides ptr.slide_idx (fun slide =>
    ⟨listModify slide.shapes ptr.shape_idx
        (fun shape => rewriteShapePptx shape ptr translated)⟩)⟩

/-- `apply_pptx_translations` (src/pptx_translate.py lines 92-106). -/
def apply_pptx_translations (prs : PptxPresentation) (translations : List (PyStr × PyStr))
    (pointers : List (PyStr × PptxPointer)) : PptxPresentation :=
  translations.foldl (fun prs2 kv =>
    match (pointers.find? (fun pr => pr.1 == kv.1)).map Prod.snd with
    | none => prs2
    | some ptr => applyOnePptx prs2 ptr kv.2) prs

/-- Python `dict.update(other)`. -/
def dictUpdate (m : List (PyStr × PyStr)) (entries : List (PyStr × PyStr)) :
    List (PyStr × PyStr) :=
  entries.foldl (fun m2 kv => dictInsert m2 kv.1 kv.2) m

/-- `translate_pptx_bytes` (src/pptx_translate.py lines 109-140), with the
python-pptx parser/serializer and the translation backend as oracles. -/
def translate_pptx_bytes
    (parsePrs : DocBytes → PptxPresentation)
    (savePrs : PptxPresentation → DocBytes)
    (translate_batch : List TranslationItem → List (PyStr × PyStr))
    (pptx_bytes : DocBytes)
    (max_chars : Nat := 18000) (max_items : Nat := 60) : DocBytes :=
  let prs := parsePrs pptx_bytes
  let ip := extract_pptx_items prs
  if ip.1 = [] then pptx_bytes
  else
    let all_translations := (chunk_items ip.1 max_chars max_items).foldl
      (fun m batch => dictUpdate m (translate_batch batch)) []
    savePrs (apply_pptx_translations prs all_translations ip.2)

/-- C10: when extraction yields no items, `translate_pptx_bytes` returns
exactly its input bytes (the early `return pptx_bytes`), never invoking the
translator or the serializer — for every parser, serializer and translator
behaviour. -/
theorem translate_pptx_bytes_empty_id
    (parsePrs : DocBytes → PptxPresentation) (savePrs : PptxPresentation → DocBytes)
    (translate_batch : List TranslationItem → List (PyStr × PyStr))
    (pptx_bytes : DocBytes) (max_chars max_items : Nat)
    (h : (extract_pptx_items (parsePrs pptx_bytes)).1 = []) :
    translate_pptx_bytes parsePrs savePrs translate_batch pptx_bytes max_chars max_items
      = pptx_bytes := by
  unfold translate_pptx_bytes
  simp [h]

/-- Witness for C10: a presentation with one slide holding one text frame
whose only paragraph is whitespace extracts nothing, and the input bytes
come back verbatim. -/
theorem translate_pptx_bytes_empty_id_witness :
    (extract_pptx_items ((fun _ => PptxPresentation.mk
        [PptxSlide.mk [PptxShape.textFrame (PptxTextFrame.mk [PptxParagraph.mk [(" ").data]])]])
        ([7, 8] : DocBytes))).1 = [] ∧
      translate_pptx_bytes
          (fun _ => PptxPresentation.mk
            [PptxSlide.mk [PptxShape.textFrame (PptxTextFrame.mk [PptxParagraph.mk [(" ").data]])]])
          (fun _ => []) (fun _ => []) ([7, 8] : DocBytes) 18000 60
        = ([7, 8] : DocBytes) :=
  ⟨by decide, translate_pptx_bytes_empty_id _ _ _ _ 18000 60 (by decide)⟩

/-! ## PDF adapter (src/pdf_translate.py)

The PyMuPDF document is modelled structurally (the `page.get_text("dict")`
shape); page rendering / background sampling, the translator, and the final
serialization (`doc.tobytes()`) are oracle parameters.  The adapter's
effects on the document are recorded as an explicit event trace
(`add_redact_annot`, `apply_redactions`, `insert_textbox`), which is what
the ordering claim C5 is about.  Floating-point coordinates are modelled as
rationals. -/

abbrev PdfColor := ℚ × ℚ × ℚ

structure PdfRect where
  x0 : ℚ
  y0 : ℚ
  x1 : ℚ
  y1 : ℚ
deriving DecidableEq, Repr

/-- `fitz.Rect.__or__` (union): the bounding box of both. -/
def rectUnion (a b : PdfRect) : PdfRect :=
  ⟨min a.x0 b.x0, min a.y0 b.y0, max a.x1 b.x1, max a.y1 b.y1⟩

structure PdfTextSpan where
  text : PyStr
  bbox : PdfRect
  size : ℚ
  font : PyStr
  color : Nat
deriving DecidableEq

structure PdfLine where
  spans : List PdfTextSpan
deriving DecidableEq

structure PdfBlock where
  btype : Nat
  lines : List PdfLine
deriving DecidableEq

structure PdfPage where
  blocks : List PdfBlock
deriving DecidableEq

/-- `_int_to_rgb_floats` (src/pdf_translate.py lines 27-32). -/
def int_to_rgb_floats (c : Nat) : PdfColor :=
  ((((c / 65536) % 256 : Nat) : ℚ) / 255, (((c / 256) % 256 : Nat) : ℚ) / 255,
    ((c % 256 : Nat) : ℚ) / 255)

def pyLower (s : PyStr) : PyStr := s.map Char.toLower

/-- `_pick_base14_font` (src/pdf_translate.py lines 35-49). -/
def pick_base14_font (span_font_name : PyStr) : PyStr :=
  let fn := pyLower span_font_name
  let bold := containsSub ("bold").data fn
  let italic := containsSub ("italic").data fn || containsSub ("oblique").data fn
  if bold && italic then ("Helvetica-BoldOblique").data
  else if bold then ("Helvetica-Bold").data
  else if italic then ("Helvetica-Oblique").data
  else ("Helvetica").data

/-- `BULLET_ONLY_RE = ^[\s•●•\-\–\—]+$` applied to the stripped line
text. -/
def isBulletChar (c : Char) : Bool :=
  isPySpace c || c = '•' || c = '●' || c = '-' || c = '–' || c = '—'

def bulletOnly (l : PyStr) : Bool := !l.isEmpty && l.all isBulletChar

/-- `PdfLineItem` (src/pdf_translate.py lines 17-24). -/
structure PdfLineItem where
  page_index : Nat
  rect : PdfRect
  text : PyStr
  fontname : PyStr
  fontsize : ℚ
  color : PdfColor
deriving DecidableEq

/-- `_extract_pdf_line_items` (src/pdf_translate.py lines 141-191): one
item per nonempty, non-bullet-only text line, with the union bbox of its
spans, the maximal span size (or 10.0 if zero), and the font/color of the
last span (the source loop overwrites them per span). -/
def extract_pdf_line_items (doc : List PdfPage) : List PdfLineItem :=
  (doc.enum).flatMap (fun pe =>
    pe.2.blocks.flatMap (fun block =>
      if block.btype ≠ 0 then []
      else
        block.lines.filterMap (fun line =>
          if line.spans = [] then none
          else
            let line_text := pyStrip ((line.spans.map (fun s => s.text)).flatten)
            if line_text = [] then none
            else if bulletOnly line_text then none
            else
              let st := line.spans.foldl
                (fun st s =>
                  ((match st.1 with
                    | none => some s.bbox
                    | some r0 => some (rectUnion r0 s.bbox)),
                   max st.2.1 s.size, pick_base14_font s.font, int_to_rgb_floats s.color))
                ((none : Option PdfRect), (0 : ℚ), ("Helvetica").data,
                  ((0 : ℚ), (0 : ℚ), (0 : ℚ)))
              match st.1 with
              | none => none
              | some rect =>
                some ⟨pe.1, rect, line_text, st.2.2.1,
                  if st.2.1 = 0 then 10 else st.2.1, st.2.2.2⟩)))

/-- The document-mutating calls the adapter issues, in order.  The
font-shrinking retry loop of `_insert_text_fit` repeatedly calls
`insert_textbox` for the same rectangle within the insertion phase; it is
recorded as a single insertion event. -/
inductive PdfEvent where
  | addRedact (page : Nat) (rect : PdfRect) (fill : PdfColor)
  | applyRedactions (page : Nat)
  | insertText (page : Nat) (rect : PdfRect) (text : PyStr) (fontname : PyStr)
      (fontsize : ℚ) (color : PdfColor)
deriving DecidableEq

def eventPage : PdfEvent → Nat
  | .addRedact p _ _ => p
  | .applyRedactions p => p
  | .insertText p _ _ _ _ _ => p

/-- The per-page body of `translate_pdf_bytes` (src/pdf_translate.py lines
258-298): skip pages with no items; otherwise add one redaction per item
(filled with the sampled background), apply all redactions once, then
insert all translated texts. -/
def pdfPageTrace (sample : Nat → PdfRect → PdfColor) (translate : List PyStr → List PyStr)
    (all_items : List PdfLineItem) (pno : Nat) : List PdfEvent :=
  let page_items := all_items.filter (fun it => it.page_index == pno)
  if page_items = [] then []
  else
    let translations := translate (page_items.map (fun it => it.text))
    (page_items.map (fun it => PdfEvent.addRedact pno it.rect (sample pno it.rect)))
      ++ PdfEvent.applyRedactions pno
      :: ((page_items.zip translations).map (fun z =>
          PdfEvent.insertText pno z.1.rect z.2 z.1.fontname z.1.fontsize z.1.color))

/-- The full event trace of `translate_pdf_bytes`: pages processed in
order. -/
def translate_pdf_trace (sample : Nat → PdfRect → PdfColor)
    (translate : List PyStr → List PyStr) (doc : List PdfPage) : List PdfEvent :=
  (List.range doc.length).flatMap
    (pdfPageTrace sample translate (extract_pdf_line_items doc))

/-- `translate_pdf_bytes` (src/pdf_translate.py lines 234-303): parse the
input, mutate the document (the trace), and return `doc.tobytes()` — the
serializer applied to the parsed document and the applied events.  Note:
it does NOT return `file_bytes` itself on any path. -/
def translate_pdf_bytes
    (parsePdf : DocBytes → List PdfPage)
    (serializePdf : List PdfPage → List PdfEvent → DocBytes)
    (sample : Nat → PdfRect → PdfColor)
    (translate : List PyStr → List PyStr)
    (file_bytes : DocBytes) : DocBytes :=
  let doc := parsePdf file_bytes
  serializePdf doc (translate_pdf_trace sample translate doc)

lemma pdfPageTrace_pages {sample : Nat → PdfRect → PdfColor}
    {translate : List PyStr → List PyStr} {items : List PdfLineItem} {n : Nat} :
    ∀ e ∈ pdfPageTrace sample translate items n, eventPage e = n := by
  intro e he
  unfold pdfPageTrace at he
  by_cases hpi : items.filter (fun it => it.page_index == n) = []
  · simp [hpi] at he
  · rw [if_neg hpi] at he
    rcases List.mem_append.mp he with he | he
    · obtain ⟨it, _, heq⟩ := List.mem_map.mp he
      rw [← heq]
      rfl
    · rcases List.mem_cons.mp he with he | he
      · rw [he]
        rfl
      · obtain ⟨z, _, heq⟩ := List.mem_map.mp he
        rw [← heq]
        rfl

lemma filter_pageTrace_ne {sample : Nat → PdfRect → PdfColor}
    {translate : List PyStr → List PyStr} {items : List PdfLineItem} {n p : Nat}
    (hnp : n ≠ p) :
    (pdfPageTrace sample translate items n).filter (fun e => eventPage e == p) = [] := by
  rw [List.filter_eq_nil_iff]
  intro e he
  simp [pdfPageTrace_pages e he, hnp]

lemma filter_pageTrace_eq {sample : Nat → PdfRect → PdfColor}
    {translate : List PyStr → List PyStr} {items : List PdfLineItem} {p : Nat} :
    (pdfPageTrace sample translate items p).filter (fun e => eventPage e == p)
      = pdfPageTrace sample translate items p := by
  rw [List.filter_eq_self]
  intro e he
  simp [pdfPageTrace_pages e he]

lemma flatMap_off_page {g : Nat → List PdfEvent} {p : Nat} (hg : ∀ n, n ≠ p → g n = []) :
    ∀ L : List Nat, p ∉ L → L.flatMap g = []
  | [], _ => rfl
  | n :: L2, hnp => by
    have hn : n ≠ p := fun h => hnp (h ▸ List.mem_cons_self n L2)
    simp only [List.flatMap_cons, hg n hn, List.nil_append]
    exact flatMap_off_page hg L2 (fun h => hnp (List.mem_cons_of_mem n h))

lemma flatMap_single_page {g : Nat → List PdfEvent} {p : Nat} (hg : ∀ n, n ≠ p → g n = []) :
    ∀ L : List Nat, L.Nodup → L.flatMap g = if p ∈ L then g p else []
  | [], _ => by simp
  | n :: L2, hnd => by
    rw [List.nodup_cons] at hnd
    by_cases hn : n = p
    · subst hn
      rw [if_pos (List.mem_cons_self n L2)]
      simp only [List.flatMap_cons]
      rw [flatMap_off_page hg L2 hnd.1]
      simp
    · simp only [List.flatMap_cons, hg n hn, List.nil_append]
      rw [flatMap_single_page hg L2 hnd.2]
      by_cases hp : p ∈ L2
      · rw [if_pos hp, if_pos (List.mem_cons_of_mem n hp)]
      · rw [if_neg hp, if_neg (by
          intro h
          rcases List.mem_cons.mp h with h | h
          · exact hn h.symm
          · exact hp h)]

lemma filter_flatMap_trace (q : PdfEvent → Bool) :
    ∀ (L : List Nat) (g : Nat → List PdfEvent),
      (L.flatMap g).filter q = L.flatMap (fun n => (g n).filter q)
  | [], _ => rfl
  | n :: L2, g => by
    simp only [List.flatMap_cons, List.filter_append]
    rw [filter_flatMap_trace q L2 g]

/-- C5: on every page, the adapter's event subsequence for that page is
redaction-complete before any insertion: it is either insertion-free, or
consists of all the page's `addRedact` events, then the single
`applyRedactions`, then only `insertText` events.  Translated text is
never inserted on a page whose redactions have not yet been applied. -/
theorem translate_pdf_redactions_before_insertions
    (sample : Nat → PdfRect → PdfColor) (translate : List PyStr → List PyStr)
    (doc : List PdfPage) (p : Nat) :
    ((translate_pdf_trace sample translate doc).filter (fun e => eventPage e == p)) = []
      ∨ ∃ (adds : List (PdfRect × PdfColor))
          (ins : List (PdfRect × PyStr × PyStr × ℚ × PdfColor)),
          ((translate_pdf_trace sample translate doc).filter (fun e => eventPage e == p))
            = adds.map (fun a => PdfEvent.addRedact p a.1 a.2)
                ++ PdfEvent.applyRedactions p
                :: ins.map (fun z =>
                    PdfEvent.insertText p z.1 z.2.1 z.2.2.1 z.2.2.2.1 z.2.2.2.2) := by
  unfold translate_pdf_trace
  rw [filter_flatMap_trace]
  rw [flatMap_single_page (fun n hn => filter_pageTrace_ne hn) (List.range doc.length)
    (List.nodup_range doc.length)]
  by_cases hp : p ∈ List.range doc.length
  · rw [if_pos hp, filter_pageTrace_eq]
    unfold pdfPageTrace
    by_cases hpi : (extract_pdf_line_items doc).filter (fun it => it.page_index == p) = []
    · left
      simp [hpi]
    · right
      rw [if_neg hpi]
      refine ⟨((extract_pdf_line_items doc).filter (fun it => it.page_index == p)).map
          (fun it => (it.rect, sample p it.rect)),
        (((extract_pdf_line_items doc).filter (fun it => it.page_index == p)).zip
            (translate (((extract_pdf_line_items doc).filter
              (fun it => it.page_index == p)).map (fun it => it.text)))).map
          (fun z => (z.1.rect, z.2, z.1.fontname, z.1.fontsize, z.1.color)), ?_⟩
      simp only [List.map_map]
      rfl
  · rw [if_neg hp]
    exact Or.inl rfl

/-- C6 (amended): when extraction yields no line items, `translate_pdf_bytes`
issues no mutation events (no redaction, no insertion, no translator call)
and returns the serialization of the unmodified parsed document — but it
does not return the input bytes themselves, so byte-for-byte identity
holds only when the serializer round-trips the parse. -/
theorem translate_pdf_no_items
    (parsePdf : DocBytes → List PdfPage)
    (serializePdf : List PdfPage → List PdfEvent → DocBytes)
    (sample : Nat → PdfRect → PdfColor) (translate : List PyStr → List PyStr)
    (file_bytes : DocBytes)
    (h : extract_pdf_line_items (parsePdf file_bytes) = []) :
    translate_pdf_trace sample translate (parsePdf file_bytes) = [] ∧
      translate_pdf_bytes parsePdf serializePdf sample translate file_bytes
        = serializePdf (parsePdf file_bytes) [] := by
  have hz : ∀ n, pdfPageTrace sample translate [] n = [] := by
    intro n
    unfold pdfPageTrace
    simp
  have htr : translate_pdf_trace sample translate (parsePdf file_bytes) = [] := by
    unfold translate_pdf_trace
    rw [h]
    rw [List.flatMap_eq_nil_iff]
    intro n _
    exact hz n
  exact ⟨htr, by
    show serializePdf (parsePdf file_bytes)
        (translate_pdf_trace sample translate (parsePdf file_bytes)) = _
    rw [htr]⟩

theorem translate_pdf_no_items_witness :
    extract_pdf_line_items ([] : List PdfPage) = [] ∧
      (translate_pdf_trace (fun _ _ => ((0 : ℚ), (0 : ℚ), (0 : ℚ))) (fun ts => ts)
          ([] : List PdfPage) = [] ∧
        translate_pdf_bytes (fun _ => ([] : List PdfPage))
            (fun (_ : List PdfPage) (es : List PdfEvent) => ([es.length] : DocBytes))
            (fun _ _ => ((0 : ℚ), (0 : ℚ), (0 : ℚ))) (fun ts => ts) [1]
          = [0]) :=
  ⟨rfl, translate_pdf_no_items (fun _ => [])
    (fun (_ : List PdfPage) (es : List PdfEvent) => ([es.length] : DocBytes))
    (fun _ _ => ((0 : ℚ), (0 : ℚ), (0 : ℚ))) (fun ts => ts) [1] rfl⟩

/-- C6: the spec promises the ORIGINAL INPUT BYTES back when no line items
are extracted, but the code returns `doc.tobytes()` — a fresh serialization
of the parsed document — on every path.  A parser/serializer pair whose
round-trip is not byte-identical (here: a serializer whose output never
equals the one-byte input) refutes the claim even though extraction is
empty. -/
theorem translate_pdf_unchanged_counterexample :
    extract_pdf_line_items ((fun _ => ([] : List PdfPage)) ([1] : DocBytes)) = [] ∧
      translate_pdf_bytes (fun _ => ([] : List PdfPage)) (fun _ _ => ([] : DocBytes))
          (fun _ _ => ((0 : ℚ), (0 : ℚ), (0 : ℚ))) (fun ts => ts) [1] ≠ [1] :=
  ⟨rfl, by decide⟩

/-! ## Excel adapter (src/xlsm_translate.py)

The openpyxl worksheet is modelled structurally: a title, the declared
print area string, a value function over 1-based (row, column), the
`max_row`/`max_column` bookkeeping, and the merged ranges.  openpyxl
computes `max_row`/`max_column` from the cell objects that exist; here the
two fields are tracked explicitly, with every operation updating them the
way the library does on the adapter's path (`ws.cell(...)` and the
non-read-only `iter_rows` create cells, so they raise the maxima; cropping
a block of rows or columns lowers them by the deleted amount).  The
translator backend is an oracle returning a Python dict — values are
`PyVal` so that a misbehaving backend can map an id to a non-string, which
is exactly what the `isinstance(new_text, str)` guard in the source is
for. -/

inductive PyVal where
  | pstr (s : PyStr)
  | pother (tag : Nat)
deriving DecidableEq, Repr

/-- openpyxl `CellRange` bounds. -/
structure CellRange where
  min_row : Nat
  min_col : Nat
  max_row : Nat
  max_col : Nat
deriving DecidableEq, Repr

structure Sheet where
  title : PyStr
  print_area : PyStr
  cells : Nat → Nat → Option PyVal
  max_row : Nat
  max_col : Nat
  merges : List CellRange

/-- Python `s.split(sep)` for a one-character separator (no empty-part
removal; that is the caller's list-comprehension filter). -/
def splitAllChar (ch : Char) : PyStr → List PyStr
  | [] => [[]]
  | c :: rest =>
    if c = ch then [] :: splitAllChar ch rest
    else
      match splitAllChar ch rest with
      | [] => [[c]]
      | h :: t => (c :: h) :: t

/-- `get_column_letter`: bijective base-26 column names (1 ↦ A, 27 ↦ AA). -/
def colLettersGo : Nat → Nat → PyStr
  | 0, _ => []
  | _ + 1, 0 => []
  | fuel + 1, n + 1 =>
    colLettersGo fuel (n / 26) ++ [Char.ofNat (65 + n % 26)]

def colLetters (n : Nat) : PyStr := colLettersGo n n

/-- One Excel coordinate such as `B12`: the letters then the digits,
yielding (row, column).  Rejects empty parts and row 0 (openpyxl raises
on those). -/
def isColLetter (c : Char) : Bool := 65 ≤ c.toUpper.toNat && c.toUpper.toNat ≤ 90

def parseCoord (p : PyStr) : Option (Nat × Nat) :=
  let ls := p.takeWhile isColLetter
  let ds := p.dropWhile isColLetter
  if ls = [] then none
  else if ds = [] then none
  else if ds.all Char.isDigit then
    let row := ds.foldl (fun a c => a * 10 + (c.toNat - 48)) 0
    if row = 0 then none
    else some (row, ls.foldl (fun a c => a * 26 + (c.toUpper.toNat - 64)) 0)
  else none

/-- openpyxl `CellRange(p)` on a `$`-free, sheet-free range string: either
`A1:B2` or a single cell `A1`. -/
def parseRange (p : PyStr) : Option CellRange :=
  if pyContains p ':' then
    let q := splitOnceChar ':' p
    match parseCoord q.1, parseCoord q.2 with
    | some a, some b => some ⟨a.1, a.2, b.1, b.2⟩
    | _, _ => none
  else
    match parseCoord p with
    | some a => some ⟨a.1, a.2, a.1, a.2⟩
    | none => none

/-- `_parse_print_area` (src/xlsm_translate.py lines 21-34).  `none` models
the `CellRange` constructor raising on a malformed part (the exception
propagates out of the adapter, which has no handler around it). -/
def parse_print_area (print_area : PyStr) : Option (List CellRange) :=
  if print_area = [] then some []
  else
    let s := pyStrip print_area
    if s = [] then some []
    else
      ((splitAllChar ',' s).map pyStrip |>.filter (fun p => p ≠ [])).mapM
        (fun p =>
          let p1 := if pyContains p '!' then (splitOnceChar '!' p).2 else p
          parseRange (p1.filter (fun c => c ≠ '$')))

/-- `_cell_in_ranges` (src/xlsm_translate.py lines 37-41). -/
def cell_in_ranges (r c : Nat) (ranges : List CellRange) : Bool :=
  ranges.any (fun cr =>
    cr.min_row ≤ r ∧ r ≤ cr.max_row ∧ cr.min_col ≤ c ∧ c ≤ cr.max_col)

structure SheetBounds where
  min_row : Nat
  max_row : Nat
  min_col : Nat
  max_col : Nat
deriving DecidableEq, Repr

def unionStep (b : SheetBounds) (x : CellRange) : SheetBounds :=
  ⟨min b.min_row x.min_row, max b.max_row x.max_row,
    min b.min_col x.min_col, max b.max_col x.max_col⟩

/-- `_union_bounds` (src/xlsm_translate.py lines 44-49); the source applies
it only to nonempty lists (`min`/`max` of an empty generator raise). -/
def union_bounds : List CellRange → SheetBounds
  | [] => ⟨1, 0, 1, 0⟩
  | cr :: rest => rest.foldl unionStep ⟨cr.min_row, cr.max_row, cr.min_col, cr.max_col⟩

/-- `_unmerge_outside_union` (src/xlsm_translate.py lines 52-69): merged
ranges not entirely inside the union are unmerged (the freed cells keep
value `None`, so the value function is unchanged). -/
def unmergeOutsideUnion (ws : Sheet) (b : SheetBounds) : Sheet :=
  { ws with merges := ws.merges.filter (fun mr =>
      b.min_row ≤ mr.min_row ∧ mr.max_row ≤ b.max_row ∧
        b.min_col ≤ mr.min_col ∧ mr.max_col ≤ b.max_col) }

/-- `ws.cell(row, column)` on a cell that is only read: the cell object is
created, which can raise the sheet's maxima, but no value changes. -/
def touchCell (ws : Sheet) (r c : Nat) : Sheet :=
  { ws with max_row := max ws.max_row r, max_col := max ws.max_col c }

/-- `ws.cell(row, column).value = v`. -/
def setCell (ws : Sheet) (r c : Nat) (v : Option PyVal) : Sheet :=
  { ws with
    cells := fun r2 c2 => if r2 = r ∧ c2 = c then v else ws.cells r2 c2,
    max_row := max ws.max_row r, max_col := max ws.max_col c }

/-- The non-read-only `iter_rows` scans of the declared ranges (header
search and item collection) create every cell of each range, raising the
maxima to at least each range's bounds. -/
def touchRanges (ws : Sheet) (ranges : List CellRange) : Sheet :=
  ranges.foldl (fun w cr => touchCell w cr.max_row cr.max_col) ws

/-- `_norm` (src/xlsm_translate.py lines 14-18): NBSP → space, strip,
uppercase, collapse whitespace runs, right-strip `" .:;,-"`. -/
def collapseWsGo : Nat → PyStr → PyStr
  | 0, _ => []
  | _ + 1, [] => []
  | fuel + 1, c :: rest =>
    if isPySpace c then ' ' :: collapseWsGo fuel (rest.dropWhile isPySpace)
    else c :: collapseWsGo fuel rest

def isNormRstripChar (c : Char) : Bool :=
  c = ' ' || c = '.' || c = ':' || c = ';' || c = ',' || c = '-'

def pyNorm (s : PyStr) : PyStr :=
  let s1 := (pyStrip (s.map (fun c => if c.toNat = 160 then ' ' else c))).map Char.toUpper
  let s2 := collapseWsGo s1.length s1
  (s2.reverse.dropWhile isNormRstripChar).reverse

/-- The cells of one declared range in `iter_rows` order (row-major). -/
def rangeCells (cr : CellRange) : List (Nat × Nat) :=
  (List.range' cr.min_row (cr.max_row + 1 - cr.min_row)).flatMap (fun r =>
    (List.range' cr.min_col (cr.max_col + 1 - cr.min_col)).map (fun c => (r, c)))

def sheetScan (ranges : List CellRange) : List (Nat × Nat) :=
  ranges.flatMap rangeCells

/-- `_find_afio_headers` (src/xlsm_translate.py lines 104-119): string
cells inside the print area normalising to `AFIO`; those in column G (7)
are preferred when any exist. -/
def find_afio_headers (ws : Sheet) (ranges : List CellRange) : List (Nat × Nat) :=
  let found := (sheetScan ranges).filter (fun rc =>
    match ws.cells rc.1 rc.2 with
    | some (PyVal.pstr v) => pyNorm v = ("AFIO").data
    | _ => false)
  let found7 := found.filter (fun rc => rc.2 = 7)
  if found7 = [] then found else found7

/-- `_under_any_afio_header` (src/xlsm_translate.py lines 122-123). -/
def under_any_afio_header (r c : Nat) (headers : List (Nat × Nat)) : Bool :=
  headers.any (fun h => c = h.2 ∧ h.1 < r)

def startsWithChar (s : PyStr) (ch : Char) : Bool :=
  match s with
  | d :: _ => d = ch
  | [] => false

/-- What the collection loop (src/xlsm_translate.py lines 169-198) does
with one cell: skip it, record it as an `NA COR` target under an AFIO
header, or collect it for translation.  `data_type == "f"` holds for a
string cell exactly when its raw value starts with `=`. -/
inductive CellAction where
  | skip
  | nacor
  | translate (raw : PyStr)
deriving DecidableEq

def classifyCell (ws : Sheet) (headers : List (Nat × Nat)) (r c : Nat) : CellAction :=
  match ws.cells r c with
  | some (PyVal.pstr raw) =>
    let txt := pyStrip raw
    if txt = [] then .skip
    else if startsWithChar raw '=' || startsWithChar txt '=' then .skip
    else if headers ≠ [] && under_any_afio_header r c headers then
      if pyNorm raw = ("NA COR").data then .nacor else .translate raw
    else .translate raw
  | _ => .skip

/-- `f"{ws.title}!{cell.coordinate}"`. -/
def mkId (title : PyStr) (r c : Nat) : PyStr :=
  title ++ '!' :: (colLetters c ++ natStr r)

/-- The `items`/`coords` lists of the collection loop, fused: one entry
`(item_id, row, column, raw)` per collected cell, in scan order. -/
def collectCells (ws : Sheet) (headers : List (Nat × Nat)) (ranges : List CellRange) :
    List (PyStr × Nat × Nat × PyStr) :=
  (sheetScan ranges).filterMap (fun rc =>
    match classifyCell ws headers rc.1 rc.2 with
    | .translate raw => some (mkId ws.title rc.1 rc.2, rc.1, rc.2, raw)
    | _ => none)

/-- The `na_cor_targets` list of the same loop. -/
def nacorTargets (ws : Sheet) (headers : List (Nat × Nat)) (ranges : List CellRange) :
    List (Nat × Nat) :=
  (sheetScan ranges).filterMap (fun rc =>
    match classifyCell ws headers rc.1 rc.2 with
    | .nacor => some rc
    | _ => none)

def sheetItems (collected : List (PyStr × Nat × Nat × PyStr)) : List TranslationItem :=
  collected.map (fun x => ⟨x.1, x.2.2.2⟩)

/-- `_chunk_list` (src/xlsm_translate.py lines 98-101). -/
def chunkListGo (bs : Nat) : Nat → List TranslationItem → List (List TranslationItem)
  | _, [] => []
  | 0, l => [l]
  | fuel + 1, l => l.take bs :: chunkListGo bs fuel (l.drop bs)

def chunkList (items : List TranslationItem) (bs : Nat) : List (List TranslationItem) :=
  if bs = 0 then [items] else chunkListGo bs items.length items

def dictInsertV (g : List (PyStr × PyVal)) (k : PyStr) (v : PyVal) : List (PyStr × PyVal) :=
  if g.any (fun p => p.1 == k) then
    g.map (fun p => if p.1 == k then (k, v) else p)
  else g ++ [(k, v)]

def dictGetV (g : List (PyStr × PyVal)) (k : PyStr) : Option PyVal :=
  (g.find? (fun p => p.1 == k)).map (·.2)

def dictUpdateV (m : List (PyStr × PyVal)) (entries : List (PyStr × PyVal)) :
    List (PyStr × PyVal) :=
  entries.foldl (fun m2 kv => dictInsertV m2 kv.1 kv.2) m

/-- The `mapping` dict accumulated over the batches (src/xlsm_translate.py
lines 200-221). -/
def sheetMapping (translate : List TranslationItem → List (PyStr × PyVal))
    (ws : Sheet) (headers : List (Nat × Nat)) (ranges : List CellRange)
    (batch_size : Nat) : List (PyStr × PyVal) :=
  (chunkList (sheetItems (collectCells ws headers ranges)) batch_size).foldl
    (fun m bt => dictUpdateV m (translate bt)) []

/-- Write-back (src/xlsm_translate.py lines 224-227): only ids mapped to a
string are written, through `apply_glossary_hard`. -/
def writeStep (mapping : List (PyStr × PyVal)) (glossary : List (PyStr × PyStr))
    (w : Sheet) (x : PyStr × Nat × Nat × PyStr) : Sheet :=
  match dictGetV mapping x.1 with
  | some (PyVal.pstr t) =>
    setCell w x.2.1 x.2.2.1 (some (PyVal.pstr (apply_glossary_hard t glossary)))
  | _ => w

def writeBack (ws : Sheet) (mapping : List (PyStr × PyVal))
    (glossary : List (PyStr × PyStr)) (collected : List (PyStr × Nat × Nat × PyStr)) : Sheet :=
  collected.foldl (writeStep mapping glossary) ws

/-- AFIO `NA COR` copy (src/xlsm_translate.py lines 230-232): after
translation, copy the column-C value of the same row (empty string when
`None`). -/
def afioStep (w : Sheet) (rc : Nat × Nat) : Sheet :=
  let w2 := touchCell w rc.1 3
  match w2.cells rc.1 3 with
  | none => setCell w2 rc.1 rc.2 (some (PyVal.pstr []))
  | some v => setCell w2 rc.1 rc.2 (some v)

def afioCopy (ws : Sheet) (targets : List (Nat × Nat)) : Sheet :=
  targets.foldl afioStep ws

/-- Clearing the union-minus-ranges region (src/xlsm_translate.py lines
235-240): every union cell outside each declared range is accessed (hence
created) and its value set to `None` if it had one. -/
def unionCells (b : SheetBounds) : List (Nat × Nat) :=
  (List.range' b.min_row (b.max_row + 1 - b.min_row)).flatMap (fun r =>
    (List.range' b.min_col (b.max_col + 1 - b.min_col)).map (fun c => (r, c)))

def clearStep (ranges : List CellRange) (w : Sheet) (rc : Nat × Nat) : Sheet :=
  if cell_in_ranges rc.1 rc.2 ranges then w
  else
    let w2 := touchCell w rc.1 rc.2
    if w2.cells rc.1 rc.2 = none then w2 else setCell w2 rc.1 rc.2 none

def clearOutside (ws : Sheet) (b : SheetBounds) (ranges : List CellRange) : Sheet :=
  (unionCells b).foldl (clearStep ranges) ws

/-- `ws.delete_rows(idx, amount)`: the deleted block disappears, later rows
shift up by `amount`, merged ranges shift with them. -/
def shiftAfter (idx amt v : Nat) : Nat := if idx ≤ v then v - amt else v

def shiftRangeRows (idx amt : Nat) (cr : CellRange) : CellRange :=
  ⟨shiftAfter idx amt cr.min_row, cr.min_col, shiftAfter idx amt cr.max_row, cr.max_col⟩

def shiftRangeCols (idx amt : Nat) (cr : CellRange) : CellRange :=
  ⟨cr.min_row, shiftAfter idx amt cr.min_col, cr.max_row, shiftAfter idx amt cr.max_col⟩

def deleteRows (ws : Sheet) (idx amt : Nat) : Sheet :=
  { ws with
    cells := fun r c => if r < idx then ws.cells r c else ws.cells (r + amt) c,
    max_row := if idx ≤ ws.max_row then ws.max_row - amt else ws.max_row,
    merges := ws.merges.map (shiftRangeRows idx amt) }

def deleteCols (ws : Sheet) (idx amt : Nat) : Sheet :=
  { ws with
    cells := fun r c => if c < idx then ws.cells r c else ws.cells r (c + amt),
    max_col := if idx ≤ ws.max_col then ws.max_col - amt else ws.max_col,
    merges := ws.merges.map (shiftRangeCols idx amt) }

def printAreaString (max_col max_row : Nat) : PyStr :=
  ['$', 'A', '$', '1', ':', '$'] ++ colLetters (max max_col 1)
    ++ '$' :: natStr (max max_row 1)

/-- `_crop_sheet_to_union` (src/xlsm_translate.py lines 72-95): delete the
rows below the union, then the rows above it, then the columns to its
right, then the columns to its left, and reset the print area to the
relabeled block `$A$1:$...$...`. -/
def cropSheet (ws : Sheet) (b : SheetBounds) : Sheet :=
  let s1 := if b.max_row < ws.max_row then
      deleteRows ws (b.max_row + 1) (ws.max_row - b.max_row) else ws
  let s2 := if 1 < b.min_row then deleteRows s1 1 (b.min_row - 1) else s1
  let s3 := if b.max_col < s2.max_col then
      deleteCols s2 (b.max_col + 1) (s2.max_col - b.max_col) else s2
  let s4 := if 1 < b.min_col then deleteCols s3 1 (b.min_col - 1) else s3
  { s4 with print_area := printAreaString s4.max_col s4.max_row }

/-- The per-sheet body of `translate_workbook_bytes_openpyxl`
(src/xlsm_translate.py lines 152-243).  `none` models an exception
propagating (malformed print area).  The unmerge and the cell-creating
range scans change only the merge list and the maxima, never a cell value
or the title, so the reads (AFIO headers, collected items, NA-COR targets,
the translation mapping) are computed from the incoming sheet up front. -/
def processSheet (translate : List TranslationItem → List (PyStr × PyVal))
    (glossary : List (PyStr × PyStr)) (batch_size : Nat) (ws : Sheet) : Option Sheet :=
  match parse_print_area ws.print_area with
  | none => none
  | some ranges =>
    if ranges = [] then some ws
    else
      let b := union_bounds ranges
      let headers := find_afio_headers ws ranges
      let ws1 := touchRanges (unmergeOutsideUnion ws b) ranges
      let ws2 := afioCopy
        (writeBack ws1 (sheetMapping translate ws headers ranges batch_size) glossary
          (collectCells ws headers ranges))
        (nacorTargets ws headers ranges)
      some (cropSheet (clearOutside ws2 b ranges) b)

/-- `translate_workbook_bytes_openpyxl` (src/xlsm_translate.py lines
126-247), with openpyxl's load/save as oracles. -/
def translate_workbook_bytes_openpyxl
    (loadWb : DocBytes → List Sheet) (saveWb : List Sheet → DocBytes)
    (translate : List TranslationItem → List (PyStr × PyVal))
    (glossary : List (PyStr × PyStr)) (batch_size : Nat)
    (workbook_bytes : DocBytes) : Option DocBytes :=
  ((loadWb workbook_bytes).mapM (processSheet translate glossary batch_size)).map saveWb

lemma mapM_id_of_some {α : Type} (f : α → Option α) :
    ∀ l : List α, (∀ x ∈ l, f x = some x) → l.mapM f = some l
  | [], _ => rfl
  | x :: l2, h => by
    rw [List.mapM_cons, h x (List.mem_cons_self x l2),
      mapM_id_of_some f l2 (fun y hy => h y (List.mem_cons_of_mem x hy))]
    rfl

/-- C7: a worksheet with no declared print area is skipped untouched — no
translation call, no cell/merge/structure mutation — and a workbook all of
whose sheets lack a print area round-trips through the adapter with every
sheet unchanged. -/
theorem translate_workbook_skips_without_print_area
    (loadWb : DocBytes → List Sheet) (saveWb : List Sheet → DocBytes)
    (translate : List TranslationItem → List (PyStr × PyVal))
    (glossary : List (PyStr × PyStr)) (batch_size : Nat) (workbook_bytes : DocBytes)
    (h : ∀ ws ∈ loadWb workbook_bytes, parse_print_area ws.print_area = some []) :
    (∀ ws ∈ loadWb workbook_bytes,
        processSheet translate glossary batch_size ws = some ws) ∧
      translate_workbook_bytes_openpyxl loadWb saveWb translate glossary batch_size
          workbook_bytes
        = some (saveWb (loadWb workbook_bytes)) := by
  have hps : ∀ ws ∈ loadWb workbook_bytes,
      processSheet translate glossary batch_size ws = some ws := by
    intro ws hws
    unfold processSheet
    rw [h ws hws]
    rfl
  refine ⟨hps, ?_⟩
  unfold translate_workbook_bytes_openpyxl
  rw [mapM_id_of_some _ _ hps]
  rfl

def xlsmNoAreaSheet : Sheet :=
  { title := ("S1").data, print_area := [], cells := fun _ _ => none,
    max_row := 1, max_col := 1, merges := [] }

theorem translate_workbook_skips_without_print_area_witness :
    (∀ ws ∈ (fun _ : DocBytes => [xlsmNoAreaSheet]) ([0] : DocBytes),
        parse_print_area ws.print_area = some []) ∧
      translate_workbook_bytes_openpyxl (fun _ => [xlsmNoAreaSheet])
          (fun l => ([l.length] : DocBytes)) (fun _ => []) [] 25 [0]
        = some [1] :=
  ⟨fun ws hws => by rw [List.mem_singleton] at hws; rw [hws]; rfl,
    (translate_workbook_skips_without_print_area (fun _ => [xlsmNoAreaSheet])
      (fun l => ([l.length] : DocBytes)) (fun _ => []) [] 25 [0]
      (fun ws hws => by rw [List.mem_singleton] at hws; rw [hws]; rfl)).2⟩

lemma unionFold_mono : ∀ (l : List CellRange) (b : SheetBounds),
    (l.foldl unionStep b).min_row ≤ b.min_row ∧ b.max_row ≤ (l.foldl unionStep b).max_row ∧
      (l.foldl unionStep b).min_col ≤ b.min_col ∧ b.max_col ≤ (l.foldl unionStep b).max_col
  | [], _ => ⟨le_refl _, le_refl _, le_refl _, le_refl _⟩
  | x :: l2, b => by
    have ih := unionFold_mono l2 (unionStep b x)
    exact ⟨le_trans ih.1 (min_le_left _ _), le_trans (le_max_left _ _) ih.2.1,
      le_trans ih.2.2.1 (min_le_left _ _), le_trans (le_max_left _ _) ih.2.2.2⟩

lemma unionFold_mem : ∀ (l : List CellRange) (b : SheetBounds) (cr : CellRange), cr ∈ l →
    (l.foldl unionStep b).min_row ≤ cr.min_row ∧ cr.max_row ≤ (l.foldl unionStep b).max_row ∧
      (l.foldl unionStep b).min_col ≤ cr.min_col ∧ cr.max_col ≤ (l.foldl unionStep b).max_col
  | [], _, _, h => absurd h (List.not_mem_nil _)
  | x :: l2, b, cr, h => by
    rcases List.mem_cons.mp h with h | h
    · subst h
      have hm := unionFold_mono l2 (unionStep b cr)
      exact ⟨le_trans hm.1 (min_le_right _ _), le_trans (le_max_right _ _) hm.2.1,
        le_trans hm.2.2.1 (min_le_right _ _), le_trans (le_max_right _ _) hm.2.2.2⟩
    · exact unionFold_mem l2 (unionStep b x) cr h

lemma union_bounds_mem {ranges : List CellRange} {cr : CellRange} (h : cr ∈ ranges) :
    (union_bounds ranges).min_row ≤ cr.min_row ∧ cr.max_row ≤ (union_bounds ranges).max_row ∧
      (union_bounds ranges).min_col ≤ cr.min_col ∧
        cr.max_col ≤ (union_bounds ranges).max_col := by
  match ranges, h with
  | x :: l2, h =>
    rcases List.mem_cons.mp h with h | h
    · subst h
      exact unionFold_mono l2 ⟨cr.min_row, cr.max_row, cr.min_col, cr.max_col⟩
    · exact unionFold_mem l2 _ cr h

lemma unionFold_lb_row : ∀ (l : List CellRange) (b : SheetBounds) (k : Nat),
    k ≤ b.min_row → (∀ x ∈ l, k ≤ x.min_row) → k ≤ (l.foldl unionStep b).min_row
  | [], _, _, hb, _ => hb
  | x :: l2, b, k, hb, hl =>
    unionFold_lb_row l2 (unionStep b x) k (le_min hb (hl x (List.mem_cons_self x l2)))
      (fun y hy => hl y (List.mem_cons_of_mem x hy))

lemma unionFold_lb_col : ∀ (l : List CellRange) (b : SheetBounds) (k : Nat),
    k ≤ b.min_col → (∀ x ∈ l, k ≤ x.min_col) → k ≤ (l.foldl unionStep b).min_col
  | [], _, _, hb, _ => hb
  | x :: l2, b, k, hb, hl =>
    unionFold_lb_col l2 (unionStep b x) k (le_min hb (hl x (List.mem_cons_self x l2)))
      (fun y hy => hl y (List.mem_cons_of_mem x hy))

lemma union_bounds_lb {ranges : List CellRange} (hne : ranges ≠ [])
    (h : ∀ cr ∈ ranges, 1 ≤ cr.min_row ∧ 1 ≤ cr.min_col) :
    1 ≤ (union_bounds ranges).min_row ∧ 1 ≤ (union_bounds ranges).min_col := by
  match ranges, hne with
  | x :: l2, _ =>
    constructor
    · exact unionFold_lb_row l2 _ 1 (h x (List.mem_cons_self x l2)).1
        (fun y hy => (h y (List.mem_cons_of_mem x hy)).1)
    · exact unionFold_lb_col l2 _ 1 (h x (List.mem_cons_self x l2)).2
        (fun y hy => (h y (List.mem_cons_of_mem x hy)).2)

lemma unionFold_ub_row : ∀ (l : List CellRange) (b : SheetBounds) (M : Nat),
    b.max_row ≤ M → (∀ x ∈ l, x.max_row ≤ M) → (l.foldl unionStep b).max_row ≤ M
  | [], _, _, hb, _ => hb
  | x :: l2, b, M, hb, hl =>
    unionFold_ub_row l2 (unionStep b x) M (max_le hb (hl x (List.mem_cons_self x l2)))
      (fun y hy => hl y (List.mem_cons_of_mem x hy))

lemma unionFold_ub_col : ∀ (l : List CellRange) (b : SheetBounds) (M : Nat),
    b.max_col ≤ M → (∀ x ∈ l, x.max_col ≤ M) → (l.foldl unionStep b).max_col ≤ M
  | [], _, _, hb, _ => hb
  | x :: l2, b, M, hb, hl =>
    unionFold_ub_col l2 (unionStep b x) M (max_le hb (hl x (List.mem_cons_self x l2)))
      (fun y hy => hl y (List.mem_cons_of_mem x hy))

lemma union_bounds_ub_row {ranges : List CellRange} {M : Nat} (hne : ranges ≠ [])
    (h : ∀ cr ∈ ranges, cr.max_row ≤ M) : (union_bounds ranges).max_row ≤ M := by
  match ranges, hne with
  | x :: l2, _ =>
    exact unionFold_ub_row l2 _ M (h x (List.mem_cons_self x l2))
      (fun y hy => h y (List.mem_cons_of_mem x hy))

lemma union_bounds_ub_col {ranges : List CellRange} {M : Nat} (hne : ranges ≠ [])
    (h : ∀ cr ∈ ranges, cr.max_col ≤ M) : (union_bounds ranges).max_col ≤ M := by
  match ranges, hne with
  | x :: l2, _ =>
    exact unionFold_ub_col l2 _ M (h x (List.mem_cons_self x l2))
      (fun y hy => h y (List.mem_cons_of_mem x hy))

lemma foldl_sheet_ge {α : Type} (g : Sheet → Nat) (f : Sheet → α → Sheet)
    (h : ∀ w x, g w ≤ g (f w x)) : ∀ (l : List α) (w : Sheet), g w ≤ g (l.foldl f w)
  | [], _ => le_refl _
  | x :: l2, w => le_trans (h w x) (foldl_sheet_ge g f h l2 (f w x))

lemma touchCell_cells (w : Sheet) (r c : Nat) : (touchCell w r c).cells = w.cells := rfl

lemma touchCell_max_row (w : Sheet) (r c : Nat) :
    (touchCell w r c).max_row = max w.max_row r := rfl

lemma setCell_cells_eq (w : Sheet) (r c : Nat) (v : Option PyVal) :
    (setCell w r c v).cells r c = v := by
  show (if r = r ∧ c = c then v else w.cells r c) = v
  rw [if_pos ⟨rfl, rfl⟩]

lemma setCell_cells_ne (w : Sheet) (r c : Nat) (v : Option PyVal) {r2 c2 : Nat}
    (h : ¬(r2 = r ∧ c2 = c)) : (setCell w r c v).cells r2 c2 = w.cells r2 c2 := by
  show (if r2 = r ∧ c2 = c then v else w.cells r2 c2) = w.cells r2 c2
  rw [if_neg h]

lemma touchRanges_cells (ws : Sheet) (ranges : List CellRange) :
    (touchRanges ws ranges).cells = ws.cells := by
  unfold touchRanges
  induction ranges generalizing ws with
  | nil => rfl
  | cons x l2 ih => exact ih (touchCell ws x.max_row x.max_col)

lemma touchRanges_title (ws : Sheet) (ranges : List CellRange) :
    (touchRanges ws ranges).title = ws.title := by
  unfold touchRanges
  induction ranges generalizing ws with
  | nil => rfl
  | cons x l2 ih => exact ih (touchCell ws x.max_row x.max_col)

lemma touchRanges_ge (ranges : List CellRange) (ws : Sheet) :
    ∀ cr ∈ ranges, cr.max_row ≤ (touchRanges ws ranges).max_row ∧
      cr.max_col ≤ (touchRanges ws ranges).max_col := by
  unfold touchRanges
  induction ranges generalizing ws with
  | nil => intro cr h; exact absurd h (List.not_mem_nil _)
  | cons x l2 ih =>
    intro cr h
    rcases List.mem_cons.mp h with h | h
    · subst h
      constructor
      · exact le_trans (le_max_right _ _)
          (foldl_sheet_ge Sheet.max_row _ (fun w y => le_max_left _ _) l2
            (touchCell ws cr.max_row cr.max_col))
      · exact le_trans (le_max_right _ _)
          (foldl_sheet_ge Sheet.max_col _ (fun w y => le_max_left _ _) l2
            (touchCell ws cr.max_row cr.max_col))
    · exact ih (touchCell ws x.max_row x.max_col) cr h

lemma writeStep_max_row (m : List (PyStr × PyVal)) (g : List (PyStr × PyStr))
    (w : Sheet) (x : PyStr × Nat × Nat × PyStr) : w.max_row ≤ (writeStep m g w x).max_row := by
  unfold writeStep
  split
  · exact le_max_left _ _
  · exact le_refl _

lemma writeStep_max_col (m : List (PyStr × PyVal)) (g : List (PyStr × PyStr))
    (w : Sheet) (x : PyStr × Nat × Nat × PyStr) : w.max_col ≤ (writeStep m g w x).max_col := by
  unfold writeStep
  split
  · exact le_max_left _ _
  · exact le_refl _

lemma afioStep_max_row (w : Sheet) (rc : Nat × Nat) : w.max_row ≤ (afioStep w rc).max_row := by
  unfold afioStep
  dsimp only
  split
  · exact le_trans (le_max_left _ _) (le_max_left _ _)
  · exact le_trans (le_max_left _ _) (le_max_left _ _)

lemma afioStep_max_col (w : Sheet) (rc : Nat × Nat) : w.max_col ≤ (afioStep w rc).max_col := by
  unfold afioStep
  dsimp only
  split
  · exact le_trans (le_max_left _ _) (le_max_left _ _)
  · exact le_trans (le_max_left _ _) (le_max_left _ _)

lemma clearStep_max_row (ranges : List CellRange) (w : Sheet) (rc : Nat × Nat) :
    w.max_row ≤ (clearStep ranges w rc).max_row := by
  unfold clearStep
  split
  · exact le_refl _
  · dsimp only
    split
    · exact le_max_left _ _
    · exact le_trans (le_max_left _ _) (le_max_left _ _)

lemma clearStep_max_col (ranges : List CellRange) (w : Sheet) (rc : Nat × Nat) :
    w.max_col ≤ (clearStep ranges w rc).max_col := by
  unfold clearStep
  split
  · exact le_refl _
  · dsimp only
    split
    · exact le_max_left _ _
    · exact le_trans (le_max_left _ _) (le_max_left _ _)

lemma mem_rangeCells {cr : CellRange} {rc : Nat × Nat} (h : rc ∈ rangeCells cr) :
    cr.min_row ≤ rc.1 ∧ rc.1 ≤ cr.max_row ∧ cr.min_col ≤ rc.2 ∧ rc.2 ≤ cr.max_col := by
  unfold rangeCells at h
  obtain ⟨r, hr, hm⟩ := List.mem_flatMap.mp h
  obtain ⟨c, hc, heq⟩ := List.mem_map.mp hm
  rw [List.mem_range'_1] at hr hc
  rw [← heq]
  exact ⟨hr.1, by omega, hc.1, by omega⟩

lemma rangeCells_mem {cr : CellRange} {r c : Nat} (h1 : cr.min_row ≤ r) (h2 : r ≤ cr.max_row)
    (h3 : cr.min_col ≤ c) (h4 : c ≤ cr.max_col) : (r, c) ∈ rangeCells cr := by
  unfold rangeCells
  rw [List.mem_flatMap]
  refine ⟨r, ?_, ?_⟩
  · rw [List.mem_range'_1]
    omega
  · rw [List.mem_map]
    refine ⟨c, ?_, rfl⟩
    rw [List.mem_range'_1]
    omega

lemma mem_sheetScan {ranges : List CellRange} {rc : Nat × Nat} (h : rc ∈ sheetScan ranges) :
    ∃ cr ∈ ranges, cr.min_row ≤ rc.1 ∧ rc.1 ≤ cr.max_row ∧
      cr.min_col ≤ rc.2 ∧ rc.2 ≤ cr.max_col := by
  obtain ⟨cr, hcr, hm⟩ := List.mem_flatMap.mp h
  exact ⟨cr, hcr, mem_rangeCells hm⟩

lemma mem_unionCells {b : SheetBounds} {ra ca : Nat} (h1 : b.min_row ≤ ra)
    (h2 : ra ≤ b.max_row) (h3 : b.min_col ≤ ca) (h4 : ca ≤ b.max_col) :
    (ra, ca) ∈ unionCells b := by
  unfold unionCells
  rw [List.mem_flatMap]
  refine ⟨ra, ?_, ?_⟩
  · rw [List.mem_range'_1]
    omega
  · rw [List.mem_map]
    refine ⟨ca, ?_, rfl⟩
    rw [List.mem_range'_1]
    omega

lemma clearStep_none_preserve {ranges : List CellRange} {w : Sheet} {ra ca : Nat}
    (h : w.cells ra ca = none) (rc : Nat × Nat) :
    (clearStep ranges w rc).cells ra ca = none := by
  unfold clearStep
  split
  · exact h
  · dsimp only
    split
    · exact h
    · by_cases heq : ra = rc.1 ∧ ca = rc.2
      · rw [heq.1, heq.2, setCell_cells_eq]
      · rw [setCell_cells_ne _ _ _ _ heq]
        exact h

lemma clearFold_none_preserve {ranges : List CellRange} {ra ca : Nat} :
    ∀ (l : List (Nat × Nat)) (w : Sheet), w.cells ra ca = none →
      (l.foldl (clearStep ranges) w).cells ra ca = none
  | [], _, h => h
  | x :: l2, w, h =>
    clearFold_none_preserve l2 (clearStep ranges w x) (clearStep_none_preserve h x)

lemma clearFold_sets_none {ranges : List CellRange} {ra ca : Nat}
    (hout : cell_in_ranges ra ca ranges = false) :
    ∀ (l : List (Nat × Nat)) (w : Sheet), (ra, ca) ∈ l →
      (l.foldl (clearStep ranges) w).cells ra ca = none
  | [], _, h => absurd h (List.not_mem_nil _)
  | x :: l2, w, h => by
    rcases List.mem_cons.mp h with h | h
    · have hstep : (clearStep ranges w x).cells ra ca = none := by
        rw [← h]
        unfold clearStep
        rw [if_neg (by simp [hout])]
        dsimp only
        split
        · assumption
        · rw [setCell_cells_eq]
      exact clearFold_none_preserve l2 (clearStep ranges w x) hstep
    · exact clearFold_sets_none hout l2 (clearStep ranges w x) h

lemma clearOutside_none {ranges : List CellRange} {b : SheetBounds} {w : Sheet} {ra ca : Nat}
    (h1 : b.min_row ≤ ra) (h2 : ra ≤ b.max_row) (h3 : b.min_col ≤ ca) (h4 : ca ≤ b.max_col)
    (hout : cell_in_ranges ra ca ranges = false) :
    (clearOutside w b ranges).cells ra ca = none :=
  clearFold_sets_none hout (unionCells b) w (mem_unionCells h1 h2 h3 h4)

lemma clearStep_inrange_preserve {ranges : List CellRange} {r c : Nat}
    (hin : cell_in_ranges r c ranges = true) (w : Sheet) (rc : Nat × Nat) :
    (clearStep ranges w rc).cells r c = w.cells r c := by
  unfold clearStep
  split
  · rfl
  · dsimp only
    split
    · rfl
    · refine setCell_cells_ne _ _ _ _ ?_
      intro heq
      rw [heq.1, heq.2] at hin
      simp [hin] at *

lemma clearOutside_inrange {ranges : List CellRange} {r c : Nat}
    (hin : cell_in_ranges r c ranges = true) (b : SheetBounds) :
    ∀ (l : List (Nat × Nat)) (w : Sheet),
      (l.foldl (clearStep ranges) w).cells r c = w.cells r c
  | [], _ => rfl
  | x :: l2, w => by
    rw [List.foldl_cons, clearOutside_inrange hin b l2 (clearStep ranges w x),
      clearStep_inrange_preserve hin]

lemma deleteRows_max_row (ws : Sheet) (idx amt : Nat) :
    (deleteRows ws idx amt).max_row
      = if idx ≤ ws.max_row then ws.max_row - amt else ws.max_row := rfl

lemma deleteRows_max_col (ws : Sheet) (idx amt : Nat) :
    (deleteRows ws idx amt).max_col = ws.max_col := rfl

lemma deleteCols_max_col (ws : Sheet) (idx amt : Nat) :
    (deleteCols ws idx amt).max_col
      = if idx ≤ ws.max_col then ws.max_col - amt else ws.max_col := rfl

lemma deleteCols_max_row (ws : Sheet) (idx amt : Nat) :
    (deleteCols ws idx amt).max_row = ws.max_row := rfl

lemma deleteRows_cells_lt (ws : Sheet) (idx amt : Nat) {r c : Nat} (h : r < idx) :
    (deleteRows ws idx amt).cells r c = ws.cells r c := by
  show (if r < idx then ws.cells r c else ws.cells (r + amt) c) = ws.cells r c
  rw [if_pos h]

lemma deleteRows_cells_ge (ws : Sheet) (idx amt : Nat) {r c : Nat} (h : ¬r < idx) :
    (deleteRows ws idx amt).cells r c = ws.cells (r + amt) c := by
  show (if r < idx then ws.cells r c else ws.cells (r + amt) c) = ws.cells (r + amt) c
  rw [if_neg h]

lemma deleteCols_cells_lt (ws : Sheet) (idx amt : Nat) {r c : Nat} (h : c < idx) :
    (deleteCols ws idx amt).cells r c = ws.cells r c := by
  show (if c < idx then ws.cells r c else ws.cells r (c + amt)) = ws.cells r c
  rw [if_pos h]

lemma deleteCols_cells_ge (ws : Sheet) (idx amt : Nat) {r c : Nat} (h : ¬c < idx) :
    (deleteCols ws idx amt).cells r c = ws.cells r (c + amt) := by
  show (if c < idx then ws.cells r c else ws.cells r (c + amt)) = ws.cells r (c + amt)
  rw [if_neg h]

lemma cropSheet_max (ws : Sheet) (b : SheetBounds)
    (hr1 : 1 ≤ b.min_row) (hr2 : b.min_row ≤ b.max_row) (hr3 : b.max_row ≤ ws.max_row)
    (hc1 : 1 ≤ b.min_col) (hc2 : b.min_col ≤ b.max_col) (hc3 : b.max_col ≤ ws.max_col) :
    (cropSheet ws b).max_row = b.max_row - b.min_row + 1 ∧
      (cropSheet ws b).max_col = b.max_col - b.min_col + 1 := by
  unfold cropSheet
  dsimp only
  have h1 : (if b.max_row < ws.max_row then
      deleteRows ws (b.max_row + 1) (ws.max_row - b.max_row) else ws).max_row = b.max_row := by
    split
    · rw [deleteRows_max_row, if_pos (by omega)]
      omega
    · omega
  have h1c : (if b.max_row < ws.max_row then
      deleteRows ws (b.max_row + 1) (ws.max_row - b.max_row) else ws).max_col = ws.max_col := by
    split
    · rw [deleteRows_max_col]
    · rfl
  generalize hS1 : (if b.max_row < ws.max_row then
      deleteRows ws (b.max_row + 1) (ws.max_row - b.max_row) else ws) = s1
  rw [hS1] at h1 h1c
  have h2 : (if 1 < b.min_row then deleteRows s1 1 (b.min_row - 1) else s1).max_row
      = b.max_row - b.min_row + 1 := by
    split
    · rw [deleteRows_max_row, h1, if_pos (by omega)]
      omega
    · rw [h1]
      omega
  have h2c : (if 1 < b.min_row then deleteRows s1 1 (b.min_row - 1) else s1).max_col
      = ws.max_col := by
    split
    · rw [deleteRows_max_col, h1c]
    · rw [h1c]
  generalize hS2 : (if 1 < b.min_row then deleteRows s1 1 (b.min_row - 1) else s1) = s2
  rw [hS2] at h2 h2c
  have h3 : (if b.max_col < s2.max_col then
      deleteCols s2 (b.max_col + 1) (s2.max_col - b.max_col) else s2).max_row
      = b.max_row - b.min_row + 1 := by
    split
    · rw [deleteCols_max_row, h2]
    · rw [h2]
  have h3c : (if b.max_col < s2.max_col then
      deleteCols s2 (b.max_col + 1) (s2.max_col - b.max_col) else s2).max_col
      = b.max_col := by
    split
    · rw [deleteCols_max_col, if_pos (by omega)]
      omega
    · rw [h2c] at *
      omega
  generalize hS3 : (if b.max_col < s2.max_col then
      deleteCols s2 (b.max_col + 1) (s2.max_col - b.max_col) else s2) = s3
  rw [hS3] at h3 h3c
  have h4 : (if 1 < b.min_col then deleteCols s3 1 (b.min_col - 1) else s3).max_row
      = b.max_row - b.min_row + 1 := by
    split
    · rw [deleteCols_max_row, h3]
    · rw [h3]
  have h4c : (if 1 < b.min_col then deleteCols s3 1 (b.min_col - 1) else s3).max_col
      = b.max_col - b.min_col + 1 := by
    split
    · rw [deleteCols_max_col, h3c, if_pos (by omega)]
      omega
    · rw [h3c]
      omega
  generalize hS4 : (if 1 < b.min_col then deleteCols s3 1 (b.min_col - 1) else s3) = s4
  rw [hS4] at h4 h4c
  exact ⟨h4, h4c⟩

lemma cropSheet_cells (ws : Sheet) (b : SheetBounds)
    (hr1 : 1 ≤ b.min_row) (hc1 : 1 ≤ b.min_col) {r c : Nat}
    (h1 : 1 ≤ r) (h2 : r + b.min_row - 1 ≤ b.max_row)
    (h3 : 1 ≤ c) (h4 : c + b.min_col - 1 ≤ b.max_col) :
    (cropSheet ws b).cells r c = ws.cells (r + b.min_row - 1) (c + b.min_col - 1) := by
  unfold cropSheet
  dsimp only
  have H1 : ∀ ra ca, ra ≤ b.max_row → (if b.max_row < ws.max_row then
      deleteRows ws (b.max_row + 1) (ws.max_row - b.max_row) else ws).cells ra ca
      = ws.cells ra ca := by
    intro ra ca hra
    split
    · exact deleteRows_cells_lt _ _ _ (by omega)
    · rfl
  generalize hS1 : (if b.max_row < ws.max_row then
      deleteRows ws (b.max_row + 1) (ws.max_row - b.max_row) else ws) = s1
  rw [hS1] at H1
  have H2 : ∀ ra ca, 1 ≤ ra → (if 1 < b.min_row then
      deleteRows s1 1 (b.min_row - 1) else s1).cells ra ca
      = s1.cells (ra + b.min_row - 1) ca := by
    intro ra ca hra
    split
    · rw [deleteRows_cells_ge _ _ _ (by omega),
        show ra + (b.min_row - 1) = ra + b.min_row - 1 from by omega]
    · rw [show ra + b.min_row - 1 = ra from by omega]
  generalize hS2 : (if 1 < b.min_row then deleteRows s1 1 (b.min_row - 1) else s1) = s2
  rw [hS2] at H2
  have H3 : ∀ ra ca, ca ≤ b.max_col → (if b.max_col < s2.max_col then
      deleteCols s2 (b.max_col + 1) (s2.max_col - b.max_col) else s2).cells ra ca
      = s2.cells ra ca := by
    intro ra ca hca
    split
    · exact deleteCols_cells_lt _ _ _ (by omega)
    · rfl
  generalize hS3 : (if b.max_col < s2.max_col then
      deleteCols s2 (b.max_col + 1) (s2.max_col - b.max_col) else s2) = s3
  rw [hS3] at H3
  have H4 : ∀ ra ca, 1 ≤ ca → (if 1 < b.min_col then
      deleteCols s3 1 (b.min_col - 1) else s3).cells ra ca
      = s3.cells ra (ca + b.min_col - 1) := by
    intro ra ca hca
    split
    · rw [deleteCols_cells_ge _ _ _ (by omega),
        show ca + (b.min_col - 1) = ca + b.min_col - 1 from by omega]
    · rw [show ca + b.min_col - 1 = ca from by omega]
  generalize hS4 : (if 1 < b.min_col then deleteCols s3 1 (b.min_col - 1) else s3) = s4
  rw [hS4] at H4
  show s4.cells r c = _
  rw [H4 r c h3, H3 r (c + b.min_col - 1) h4, H2 r (c + b.min_col - 1) h1,
    H1 (r + b.min_row - 1) (c + b.min_col - 1) h2]

/-- C3: for a worksheet whose declared print-area ranges parse and are
well-formed, the processed sheet is cropped to the union bounding
rectangle of the ranges, relabeled to start at `A1`: its structural bounds
are exactly the union's height and width, and every cell of the relabeled
block that lies outside all declared ranges (the union-minus-ranges
region, cleared before the crop) is empty. -/
theorem processSheet_crops_to_print_area
    (translate : List TranslationItem → List (PyStr × PyVal))
    (glossary : List (PyStr × PyStr)) (bs : Nat) (ws : Sheet) (ranges : List CellRange)
    (hp : parse_print_area ws.print_area = some ranges)
    (hne : ranges ≠ [])
    (hv : ∀ cr ∈ ranges, 1 ≤ cr.min_row ∧ cr.min_row ≤ cr.max_row ∧
      1 ≤ cr.min_col ∧ cr.min_col ≤ cr.max_col) :
    ∃ ws2, processSheet translate glossary bs ws = some ws2 ∧
      ws2.max_row = (union_bounds ranges).max_row - (union_bounds ranges).min_row + 1 ∧
      ws2.max_col = (union_bounds ranges).max_col - (union_bounds ranges).min_col + 1 ∧
      ∀ r c, 1 ≤ r → r ≤ ws2.max_row → 1 ≤ c → c ≤ ws2.max_col →
        cell_in_ranges (r + (union_bounds ranges).min_row - 1)
          (c + (union_bounds ranges).min_col - 1) ranges = false →
        ws2.cells r c = none := by
  have hsome : processSheet translate glossary bs ws
      = some (cropSheet (clearOutside
          (afioCopy
            (writeBack (touchRanges (unmergeOutsideUnion ws (union_bounds ranges)) ranges)
              (sheetMapping translate ws (find_afio_headers ws ranges) ranges bs) glossary
              (collectCells ws (find_afio_headers ws ranges) ranges))
            (nacorTargets ws (find_afio_headers ws ranges) ranges))
          (union_bounds ranges) ranges) (union_bounds ranges)) := by
    unfold processSheet
    rw [hp]
    dsimp only
    rw [if_neg hne]
  obtain ⟨cr0, hcr0⟩ : ∃ cr, cr ∈ ranges := by
    cases ranges with
    | nil => exact absurd rfl hne
    | cons x l => exact ⟨x, List.mem_cons_self x l⟩
  have hlb := union_bounds_lb hne (fun cr h => ⟨(hv cr h).1, (hv cr h).2.2.1⟩)
  have humem := union_bounds_mem hcr0
  have hrow : (union_bounds ranges).min_row ≤ (union_bounds ranges).max_row :=
    le_trans humem.1 (le_trans (hv cr0 hcr0).2.1 humem.2.1)
  have hcol : (union_bounds ranges).min_col ≤ (union_bounds ranges).max_col :=
    le_trans humem.2.2.1 (le_trans (hv cr0 hcr0).2.2.2 humem.2.2.2)
  have htr := touchRanges_ge ranges (unmergeOutsideUnion ws (union_bounds ranges))
  have hur : (union_bounds ranges).max_row
      ≤ (touchRanges (unmergeOutsideUnion ws (union_bounds ranges)) ranges).max_row :=
    union_bounds_ub_row hne (fun cr h => (htr cr h).1)
  have huc : (union_bounds ranges).max_col
      ≤ (touchRanges (unmergeOutsideUnion ws (union_bounds ranges)) ranges).max_col :=
    union_bounds_ub_col hne (fun cr h => (htr cr h).2)
  have hWr : (union_bounds ranges).max_row
      ≤ (clearOutside
          (afioCopy
            (writeBack (touchRanges (unmergeOutsideUnion ws (union_bounds ranges)) ranges)
              (sheetMapping translate ws (find_afio_headers ws ranges) ranges bs) glossary
              (collectCells ws (find_afio_headers ws ranges) ranges))
            (nacorTargets ws (find_afio_headers ws ranges) ranges))
          (union_bounds ranges) ranges).max_row := by
    refine le_trans hur (le_trans (foldl_sheet_ge Sheet.max_row _
      (writeStep_max_row (sheetMapping translate ws (find_afio_headers ws ranges) ranges bs)
        glossary) _ _) (le_trans (foldl_sheet_ge Sheet.max_row _ afioStep_max_row _ _)
          (foldl_sheet_ge Sheet.max_row _ (clearStep_max_row ranges) _ _)))
  have hWc : (union_bounds ranges).max_col
      ≤ (clearOutside
          (afioCopy
            (writeBack (touchRanges (unmergeOutsideUnion ws (union_bounds ranges)) ranges)
              (sheetMapping translate ws (find_afio_headers ws ranges) ranges bs) glossary
              (collectCells ws (find_afio_headers ws ranges) ranges))
            (nacorTargets ws (find_afio_headers ws ranges) ranges))
          (union_bounds ranges) ranges).max_col := by
    refine le_trans huc (le_trans (foldl_sheet_ge Sheet.max_col _
      (writeStep_max_col (sheetMapping translate ws (find_afio_headers ws ranges) ranges bs)
        glossary) _ _) (le_trans (foldl_sheet_ge Sheet.max_col _ afioStep_max_col _ _)
          (foldl_sheet_ge Sheet.max_col _ (clearStep_max_col ranges) _ _)))
  have hmax := cropSheet_max _ (union_bounds ranges) hlb.1 hrow hWr hlb.2 hcol hWc
  refine ⟨_, hsome, hmax.1, hmax.2, ?_⟩
  intro r c h1 h2 h3 h4 hout
  rw [hmax.1] at h2
  rw [hmax.2] at h4
  rw [cropSheet_cells _ (union_bounds ranges) hlb.1 hlb.2 h1 (by omega) h3 (by omega)]
  exact clearOutside_none (by omega) (by omega) (by omega) (by omega) hout

def xlsmCropSheet : Sheet :=
  { title := ("S").data, print_area := ("B2:D4,F2:G4").data,
    cells := fun r c => if r ≤ 9 ∧ c ≤ 9 then some (PyVal.pstr ['x']) else none,
    max_row := 9, max_col := 9, merges := [] }

theorem processSheet_crops_to_print_area_witness :
    parse_print_area xlsmCropSheet.print_area
        = some ([⟨2, 2, 4, 4⟩, ⟨2, 6, 4, 7⟩] : List CellRange) ∧
      (∃ ws2, processSheet (fun _ => ([] : List (PyStr × PyVal))) [] 25 xlsmCropSheet
          = some ws2 ∧
        ws2.max_row = (union_bounds ([⟨2, 2, 4, 4⟩, ⟨2, 6, 4, 7⟩] : List CellRange)).max_row
          - (union_bounds ([⟨2, 2, 4, 4⟩, ⟨2, 6, 4, 7⟩] : List CellRange)).min_row + 1 ∧
        ws2.max_col = (union_bounds ([⟨2, 2, 4, 4⟩, ⟨2, 6, 4, 7⟩] : List CellRange)).max_col
          - (union_bounds ([⟨2, 2, 4, 4⟩, ⟨2, 6, 4, 7⟩] : List CellRange)).min_col + 1 ∧
        ∀ r c, 1 ≤ r → r ≤ ws2.max_row → 1 ≤ c → c ≤ ws2.max_col →
          cell_in_ranges
              (r + (union_bounds ([⟨2, 2, 4, 4⟩, ⟨2, 6, 4, 7⟩] : List CellRange)).min_row - 1)
              (c + (union_bounds ([⟨2, 2, 4, 4⟩, ⟨2, 6, 4, 7⟩] : List CellRange)).min_col - 1)
              ([⟨2, 2, 4, 4⟩, ⟨2, 6, 4, 7⟩] : List CellRange) = false →
          ws2.cells r c = none) :=
  ⟨by decide,
    processSheet_crops_to_print_area (fun _ => ([] : List (PyStr × PyVal))) [] 25
      xlsmCropSheet ([⟨2, 2, 4, 4⟩, ⟨2, 6, 4, 7⟩] : List CellRange)
      (by decide) (by decide) (by decide)⟩

lemma mem_collectCells {ws : Sheet} {headers : List (Nat × Nat)} {ranges : List CellRange}
    {x : PyStr × Nat × Nat × PyStr} (h : x ∈ collectCells ws headers ranges) :
    classifyCell ws headers x.2.1 x.2.2.1 = CellAction.translate x.2.2.2 ∧
      x.1 = mkId ws.title x.2.1 x.2.2.1 ∧ (x.2.1, x.2.2.1) ∈ sheetScan ranges := by
  unfold collectCells at h
  obtain ⟨rc, hrc, hf⟩ := List.mem_filterMap.mp h
  cases hcl : classifyCell ws headers rc.1 rc.2 with
  | skip => rw [hcl] at hf; exact absurd hf (by simp)
  | nacor => rw [hcl] at hf; exact absurd hf (by simp)
  | translate raw =>
    rw [hcl] at hf
    injection hf with hf
    rw [← hf]
    exact ⟨hcl, rfl, hrc⟩

lemma mem_nacorTargets {ws : Sheet} {headers : List (Nat × Nat)} {ranges : List CellRange}
    {rc : Nat × Nat} (h : rc ∈ nacorTargets ws headers ranges) :
    classifyCell ws headers rc.1 rc.2 = CellAction.nacor := by
  unfold nacorTargets at h
  obtain ⟨rc2, hrc2, hf⟩ := List.mem_filterMap.mp h
  cases hcl : classifyCell ws headers rc2.1 rc2.2 with
  | skip => rw [hcl] at hf; exact absurd hf (by simp)
  | translate raw => rw [hcl] at hf; exact absurd hf (by simp)
  | nacor =>
    rw [hcl] at hf
    injection hf with hf
    rw [← hf]
    exact hcl

lemma classify_translate_value {ws : Sheet} {headers : List (Nat × Nat)} {r c : Nat}
    {raw : PyStr} (h : classifyCell ws headers r c = CellAction.translate raw) :
    ws.cells r c = some (PyVal.pstr raw) := by
  unfold classifyCell at h
  cases hc : ws.cells r c with
  | none => rw [hc] at h; exact absurd h (by simp)
  | some v =>
    cases v with
    | pother t => rw [hc] at h; exact absurd h (by simp)
    | pstr s =>
      rw [hc] at h
      dsimp only at h
      by_cases h1 : pyStrip s = []
      · rw [if_pos h1] at h; exact absurd h (by simp)
      · rw [if_neg h1] at h
        by_cases h2 : (startsWithChar s '=' || startsWithChar (pyStrip s) '=') = true
        · rw [if_pos h2] at h; exact absurd h (by simp)
        · rw [if_neg h2] at h
          by_cases h3 : (headers ≠ [] && under_any_afio_header r c headers) = true
          · rw [if_pos h3] at h
            by_cases h4 : pyNorm s = ("NA COR").data
            · rw [if_pos h4] at h; exact absurd h (by simp)
            · rw [if_neg h4] at h
              injection h with h
              rw [h]
          · rw [if_neg h3] at h
            injection h with h
            rw [h]

lemma writeStep_preserve {m : List (PyStr × PyVal)} {g : List (PyStr × PyStr)} {r c : Nat}
    {w : Sheet} {x : PyStr × Nat × Nat × PyStr}
    (hx : x.2.1 = r ∧ x.2.2.1 = c → ∀ t, dictGetV m x.1 ≠ some (PyVal.pstr t)) :
    (writeStep m g w x).cells r c = w.cells r c := by
  unfold writeStep
  cases hdg : dictGetV m x.1 with
  | none => rfl
  | some v =>
    cases v with
    | pother t => rfl
    | pstr t =>
      refine setCell_cells_ne _ _ _ _ ?_
      intro heq
      exact hx ⟨heq.1.symm, heq.2.symm⟩ t hdg

lemma writeBack_preserve {m : List (PyStr × PyVal)} {g : List (PyStr × PyStr)} {r c : Nat} :
    ∀ (coll : List (PyStr × Nat × Nat × PyStr)) (w : Sheet),
      (∀ x ∈ coll, (x.2.1 = r ∧ x.2.2.1 = c) → ∀ t, dictGetV m x.1 ≠ some (PyVal.pstr t)) →
      (writeBack w m g coll).cells r c = w.cells r c
  | [], _, _ => rfl
  | x :: l, w, h => by
    show (writeBack (writeStep m g w x) m g l).cells r c = w.cells r c
    rw [writeBack_preserve l (writeStep m g w x)
        (fun y hy hc => h y (List.mem_cons_of_mem x hy) hc),
      writeStep_preserve (h x (List.mem_cons_self x l))]

lemma afioStep_preserve {r c : Nat} {w : Sheet} {rc : Nat × Nat}
    (h : ¬(rc.1 = r ∧ rc.2 = c)) : (afioStep w rc).cells r c = w.cells r c := by
  unfold afioStep
  dsimp only
  split
  · exact setCell_cells_ne _ _ _ _ (fun heq => h ⟨heq.1.symm, heq.2.symm⟩)
  · exact setCell_cells_ne _ _ _ _ (fun heq => h ⟨heq.1.symm, heq.2.symm⟩)

lemma afioCopy_preserve {r c : Nat} :
    ∀ (ts : List (Nat × Nat)) (w : Sheet), (∀ rc ∈ ts, ¬(rc.1 = r ∧ rc.2 = c)) →
      (afioCopy w ts).cells r c = w.cells r c
  | [], _, _ => rfl
  | rc :: l, w, h => by
    show (afioCopy (afioStep w rc) l).cells r c = w.cells r c
    rw [afioCopy_preserve l (afioStep w rc) (fun y hy => h y (List.mem_cons_of_mem rc hy)),
      afioStep_preserve (h rc (List.mem_cons_self rc l))]

/-- C4: a cell collected for translation whose id the translation mapping
omits (or maps to a non-string) is written back by nothing: the processed
sheet still holds the cell's original text at its relabeled position —
not an empty cell, and with no exception raised. -/
theorem processSheet_keeps_untranslated_cell
    (translate : List TranslationItem → List (PyStr × PyVal))
    (glossary : List (PyStr × PyStr)) (bs : Nat) (ws : Sheet) (ranges : List CellRange)
    (id : PyStr) (r c : Nat) (raw : PyStr)
    (hp : parse_print_area ws.print_area = some ranges)
    (hne : ranges ≠ [])
    (hv : ∀ cr ∈ ranges, 1 ≤ cr.min_row ∧ cr.min_row ≤ cr.max_row ∧
      1 ≤ cr.min_col ∧ cr.min_col ≤ cr.max_col)
    (hmem : (id, r, c, raw) ∈ collectCells ws (find_afio_headers ws ranges) ranges)
    (hmiss : ∀ t, dictGetV (sheetMapping translate ws (find_afio_headers ws ranges) ranges bs) id
      ≠ some (PyVal.pstr t)) :
    ∃ ws2, processSheet translate glossary bs ws = some ws2 ∧
      ws2.cells (r - (union_bounds ranges).min_row + 1)
          (c - (union_bounds ranges).min_col + 1)
        = some (PyVal.pstr raw) := by
  have hsome : processSheet translate glossary bs ws
      = some (cropSheet (clearOutside
          (afioCopy
            (writeBack (touchRanges (unmergeOutsideUnion ws (union_bounds ranges)) ranges)
              (sheetMapping translate ws (find_afio_headers ws ranges) ranges bs) glossary
              (collectCells ws (find_afio_headers ws ranges) ranges))
            (nacorTargets ws (find_afio_headers ws ranges) ranges))
          (union_bounds ranges) ranges) (union_bounds ranges)) := by
    unfold processSheet
    rw [hp]
    dsimp only
    rw [if_neg hne]
  obtain ⟨hcl, hid, hscan⟩ := mem_collectCells hmem
  obtain ⟨cr, hcr, hb1, hb2, hb3, hb4⟩ := mem_sheetScan hscan
  have hub := union_bounds_mem hcr
  have hlb := union_bounds_lb hne (fun cr2 h2 => ⟨(hv cr2 h2).1, (hv cr2 h2).2.2.1⟩)
  have hru1 : (union_bounds ranges).min_row ≤ r := le_trans hub.1 hb1
  have hru2 : r ≤ (union_bounds ranges).max_row := le_trans hb2 hub.2.1
  have hcu1 : (union_bounds ranges).min_col ≤ c := le_trans hub.2.2.1 hb3
  have hcu2 : c ≤ (union_bounds ranges).max_col := le_trans hb4 hub.2.2.2
  have hin : cell_in_ranges r c ranges = true := by
    unfold cell_in_ranges
    rw [List.any_eq_true]
    refine ⟨cr, hcr, ?_⟩
    simp only [decide_eq_true_eq]
    exact ⟨hb1, hb2, hb3, hb4⟩
  have hval : ws.cells r c = some (PyVal.pstr raw) := classify_translate_value hcl
  refine ⟨_, hsome, ?_⟩
  rw [cropSheet_cells _ (union_bounds ranges) hlb.1 hlb.2 (by omega) (by omega)
    (by omega) (by omega)]
  rw [show r - (union_bounds ranges).min_row + 1 + (union_bounds ranges).min_row - 1 = r
    from by omega]
  rw [show c - (union_bounds ranges).min_col + 1 + (union_bounds ranges).min_col - 1 = c
    from by omega]
  unfold clearOutside
  rw [clearOutside_inrange hin (union_bounds ranges) (unionCells (union_bounds ranges)) _]
  rw [afioCopy_preserve (nacorTargets ws (find_afio_headers ws ranges) ranges) _ ?hnc]
  case hnc =>
    intro rc hrc heq
    have hn := mem_nacorTargets hrc
    rw [heq.1, heq.2] at hn
    rw [hn] at hcl
    exact absurd hcl (by simp)
  rw [writeBack_preserve (collectCells ws (find_afio_headers ws ranges) ranges) _ ?hwb]
  case hwb =>
    intro x hx hxc t
    have hx2 := (mem_collectCells hx).2.1
    rw [hxc.1, hxc.2] at hx2
    rw [hx2, ← hid]
    exact hmiss t
  rw [touchRanges_cells]
  exact hval

def xlsmMissSheet : Sheet :=
  { title := ("S").data, print_area := ("A1:B2").data,
    cells := fun r c => if r = 1 ∧ c = 1 then some (PyVal.pstr ("hi").data) else none,
    max_row := 2, max_col := 2, merges := [] }

theorem processSheet_keeps_untranslated_cell_witness :
    ((("S!A1").data, 1, 1, ("hi").data)
        ∈ collectCells xlsmMissSheet
          (find_afio_headers xlsmMissSheet ([⟨1, 1, 2, 2⟩] : List CellRange))
          ([⟨1, 1, 2, 2⟩] : List CellRange)) ∧
      (∃ ws2, processSheet (fun _ => ([] : List (PyStr × PyVal))) [] 25 xlsmMissSheet
          = some ws2 ∧
        ws2.cells (1 - (union_bounds ([⟨1, 1, 2, 2⟩] : List CellRange)).min_row + 1)
            (1 - (union_bounds ([⟨1, 1, 2, 2⟩] : List CellRange)).min_col + 1)
          = some (PyVal.pstr (("hi").data))) :=
  ⟨by decide,
    processSheet_keeps_untranslated_cell (fun _ => ([] : List (PyStr × PyVal))) [] 25
      xlsmMissSheet ([⟨1, 1, 2, 2⟩] : List CellRange) (("S!A1").data) 1 1 (("hi").data)
      (by decide) (by decide) (by decide) (by decide)
      (fun t h => Option.noConfusion h)⟩
